import Mathlib

/-!
Shallow embedding of the orderflow-rs market-data generator
(src/order.rs, src/regime.rs, src/scenario.rs, src/engine.rs) and proofs
about it.  Real-valued quantities of the program (prices, times, rates)
are modelled as rationals; the transcendental parts of the price process
(exp, ln, cos) reach the embedded tick only through oracle inputs, and
the random number generator is abstracted as an oracle stream of draws.
IEEE-754 binary64 arithmetic is modelled exactly where a claim is about
it (the dt_years computation), via round-to-nearest-even on rationals.
-/

/-! ## Order model (src/order.rs) -/

/-- Side of an order, mirroring enum Side in src/order.rs. -/
inductive Side where
  | Buy
  | Sell
deriving DecidableEq, Repr

/-- Order kind, mirroring enum OrderType in src/order.rs. -/
inductive OrderType where
  | Limit
  | Market
deriving DecidableEq, Repr

/-- An order record, mirroring struct Order in src/order.rs.  The f64
fields price, created_at and ttl are modelled as rationals; id (u64 in the
source) is a natural number. -/
structure Order where
  id : Nat
  side : Side
  order_type : OrderType
  price : ℚ
  size : Nat
  created_at : ℚ
  ttl : ℚ
deriving DecidableEq, Repr

/-! ## IEEE-754 binary64 model

Used by the claims about the binary wire format and about dt_years.
A double is represented by its exact rational value; rounding a rational
to the nearest double is round-to-nearest, ties to even, on a 53-bit
significand (normal range only, which covers every value these claims
touch). -/

/-- Round a rational to the nearest integer, ties to even. -/
def roundHalfEven (q : ℚ) : ℤ :=
  let f := Rat.floor q
  let r := q - f
  if r < 1/2 then f
  else if 1/2 < r then f + 1
  else if f % 2 = 0 then f else f + 1

/-- Fuel-driven floor of the base-2 logarithm of a natural number
(structural recursion so that concrete values reduce). -/
def log2fuel : Nat → Nat → Nat
  | 0, _ => 0
  | fuel + 1, n => if 2 ≤ n then log2fuel fuel (n / 2) + 1 else 0

/-- Floor of the base-2 logarithm of a natural number. -/
def natLog2 (n : Nat) : Nat := log2fuel n n

/-- Floor of the base-2 logarithm of a positive rational, computed by
scaling so the quotient is at least one.  Valid for q bigger than 2 to
the minus 400, far below any magnitude the embedded program produces. -/
def ratLog2 (q : ℚ) : ℤ :=
  (natLog2 ((q.num.natAbs * 2 ^ 400) / q.den) : ℤ) - 400

/-- Round a positive rational to the nearest representable binary64 value
(round to nearest, ties to even, 53-bit significand). -/
def roundF64Pos (q : ℚ) : ℚ :=
  let e : ℤ := ratLog2 q - 52
  let m : ℤ := roundHalfEven (q * (2 : ℚ) ^ (-e))
  (m : ℚ) * (2 : ℚ) ^ e

/-- Round a rational to the nearest representable binary64 value. -/
def roundF64 (q : ℚ) : ℚ :=
  if 0 < q then roundF64Pos q
  else if q < 0 then -(roundF64Pos (-q))
  else 0

/-- IEEE-754 binary64 multiplication on exact rational representatives. -/
def fmul (a b : ℚ) : ℚ := roundF64 (a * b)

/-- IEEE-754 binary64 division on exact rational representatives. -/
def fdiv (a b : ℚ) : ℚ := roundF64 (a / b)

/-- The dt_years function of src/engine.rs lines 21-23, evaluated in
binary64 arithmetic exactly as written there:
1.0 / (252.0 * 6.5 * 3600.0) * tick_interval / 0.1 * 0.1.
The decimal literals 252.0, 6.5, 3600.0 and 1.0 are exactly
representable; 0.1 denotes the double nearest to one tenth. -/
def dt_years (tick_interval : ℚ) : ℚ :=
  let lit01 : ℚ := roundF64 (1/10)
  fmul (fdiv (fmul (fdiv 1 (fmul (fmul 252 (13/2)) 3600)) tick_interval) lit01) lit01

/-- The formula the specification gives for dt_years, evaluated in
binary64 arithmetic: tick_interval / (252 * 6.5 * 3600). -/
def dt_years_specFormula (tick_interval : ℚ) : ℚ :=
  fdiv tick_interval (fmul (fmul 252 (13/2)) 3600)

/-! ## Binary wire format (src/order.rs) -/

/-- Little-endian bytes of a u64, mirroring u64::to_le_bytes. -/
def u64le (n : Nat) : List Nat :=
  [n % 256, n / 2 ^ 8 % 256, n / 2 ^ 16 % 256, n / 2 ^ 24 % 256,
   n / 2 ^ 32 % 256, n / 2 ^ 40 % 256, n / 2 ^ 48 % 256, n / 2 ^ 56 % 256]

/-- Little-endian bytes of a u32, mirroring u32::to_le_bytes. -/
def u32le (n : Nat) : List Nat :=
  [n % 256, n / 2 ^ 8 % 256, n / 2 ^ 16 % 256, n / 2 ^ 24 % 256]

/-- IEEE-754 binary64 bit pattern of the double nearest to q (normal
range; sign, biased exponent, 52 stored mantissa bits). -/
def f64bits (q : ℚ) : Nat :=
  let r := roundF64 q
  if r = 0 then 0
  else
    let s : Nat := if r < 0 then 1 else 0
    let a : ℚ := |r|
    let e : ℤ := ratLog2 a
    let m : ℤ := Rat.floor (a * (2 : ℚ) ^ (52 - e))
    s * 2 ^ 63 + ((e + 1023).toNat % 2048) * 2 ^ 52 + (m.toNat - 2 ^ 52) % 2 ^ 52

/-- Little-endian bytes of the binary64 encoding of q, mirroring
f64::to_le_bytes. -/
def f64le (q : ℚ) : List Nat := u64le (f64bits q)

/-- Wire byte of a Side (1 buy, 2 sell), as in Order::to_wire_binary. -/
def Side.wireByte : Side → Nat
  | Side.Buy => 1
  | Side.Sell => 2

/-- Wire byte of an OrderType (1 limit, 2 market), as in
Order::to_wire_binary. -/
def OrderType.wireByte : OrderType → Nat
  | OrderType.Limit => 1
  | OrderType.Market => 2

/-- Binary order encoding, mirroring Order::to_wire_binary in
src/order.rs: magic "OF" (bytes 79 70), version 1, msg_type 1, id as
u64 LE, side byte, order_type byte, price as f64 LE, size as u32 LE,
created_at as f64 LE. -/
def Order.to_wire_binary (o : Order) : List Nat :=
  [79, 70] ++ [1] ++ [1] ++ u64le o.id ++ [o.side.wireByte] ++
    [o.order_type.wireByte] ++ f64le o.price ++ u32le o.size ++ f64le o.created_at

/-- Binary cancel encoding, mirroring cancel_to_wire_binary in
src/order.rs: magic "OF", version 1, msg_type 2, id as u64 LE, time as
f64 LE. -/
def cancel_to_wire_binary (order_id : Nat) (current_time : ℚ) : List Nat :=
  [79, 70] ++ [1] ++ [2] ++ u64le order_id ++ f64le current_time

/-! ## Regimes (src/regime.rs) -/

/-- Market regime tag, mirroring enum Regime in src/regime.rs. -/
inductive Regime where
  | Calm
  | Volatile
  | Crash
  | Rally
  | Recovery
deriving DecidableEq, Repr

/-- The declared order of regimes, mirroring Regime::ALL. -/
def Regime.ALL : List Regime :=
  [Regime.Calm, Regime.Volatile, Regime.Crash, Regime.Rally, Regime.Recovery]

/-- Per-regime parameter record, mirroring struct RegimeParams in
src/regime.rs. -/
structure RegimeParams where
  sigma : ℚ
  mu : ℚ
  limit_rate : ℚ
  market_rate : ℚ
  cancel_rate : ℚ
  buy_prob : ℚ
  half_spread : ℚ
  offset_lambda : ℚ
  size_mult : ℚ
  min_duration : ℚ
  max_duration : ℚ
deriving DecidableEq, Repr

/-- The static regime parameter table REGIME_TABLE of src/regime.rs,
exposed as the lookup regime::params (table indexed by Regime::index). -/
def regimeParams : Regime → RegimeParams
  | Regime.Calm =>
    { sigma := 15/100, mu := 0, limit_rate := 50, market_rate := 5, cancel_rate := 20,
      buy_prob := 1/2, half_spread := 3/100, offset_lambda := 5, size_mult := 1,
      min_duration := 5, max_duration := 30 }
  | Regime.Volatile =>
    { sigma := 80/100, mu := 0, limit_rate := 80, market_rate := 15, cancel_rate := 40,
      buy_prob := 1/2, half_spread := 8/100, offset_lambda := 5/2, size_mult := 3/2,
      min_duration := 3, max_duration := 15 }
  | Regime.Crash =>
    { sigma := 2, mu := -45/1000, limit_rate := 15, market_rate := 45, cancel_rate := 80,
      buy_prob := 12/100, half_spread := 25/100, offset_lambda := 12/10, size_mult := 3,
      min_duration := 2, max_duration := 10 }
  | Regime.Rally =>
    { sigma := 3/2, mu := 35/1000, limit_rate := 25, market_rate := 35, cancel_rate := 50,
      buy_prob := 88/100, half_spread := 15/100, offset_lambda := 18/10, size_mult := 5/2,
      min_duration := 2, max_duration := 12 }
  | Regime.Recovery =>
    { sigma := 1/2, mu := 5/1000, limit_rate := 60, market_rate := 8, cancel_rate := 25,
      buy_prob := 55/100, half_spread := 5/100, offset_lambda := 4, size_mult := 1,
      min_duration := 3, max_duration := 15 }

/-- The Markov transition matrix TRANSITION_PROB of src/regime.rs, row
indexed by the source regime, columns in the order of Regime::ALL. -/
def TRANSITION_PROB : Regime → List ℚ
  | Regime.Calm => [0, 8/1000, 3/1000, 3/1000, 0]
  | Regime.Volatile => [5/1000, 0, 8/1000, 6/1000, 4/1000]
  | Regime.Crash => [0, 4/1000, 0, 2/1000, 20/1000]
  | Regime.Rally => [0, 6/1000, 2/1000, 0, 15/1000]
  | Regime.Recovery => [15/1000, 4/1000, 1/1000, 2/1000, 0]

/-- Mutable regime state, mirroring struct RegimeState in src/regime.rs. -/
structure RegimeState where
  current : Regime
  time_in_regime : ℚ
  regime_duration : ℚ
  previous : Regime
deriving DecidableEq, Repr

/-- Model of random_regime_duration in src/regime.rs:
rng.gen_range(min_duration..=max_duration), with the uniform draw
abstracted as u in the unit interval. -/
def randRegimeDuration (regime : Regime) (u : ℚ) : ℚ :=
  let p := regimeParams regime
  p.min_duration + u * (p.max_duration - p.min_duration)

/-- RegimeState::transition_to of src/regime.rs: record the previous
regime, switch to next, reset time_in_regime and resample the duration
(the uniform draw is the oracle input u). -/
def RegimeState.transition_to (st : RegimeState) (next : Regime) (u : ℚ) : RegimeState :=
  { previous := st.current
    current := next
    time_in_regime := 0
    regime_duration := randRegimeDuration next u }

/-- RegimeState::new of src/regime.rs. -/
def RegimeState.mkNew (regime : Regime) (u : ℚ) : RegimeState :=
  { current := regime
    time_in_regime := 0
    regime_duration := randRegimeDuration regime u
    previous := regime }

/-- Cumulative-probability walk of try_transition in src/regime.rs: walk
the row, accumulating, and return the first bucket the roll falls in. -/
def walkRow (roll : ℚ) : List (Regime × ℚ) → ℚ → Option Regime
  | [], _ => none
  | (r, p) :: rest, cumulative =>
    if roll < cumulative + p then some r else walkRow roll rest (cumulative + p)

/-- try_transition of src/regime.rs: no transition unless transitions are
allowed and the sampled duration has elapsed; otherwise roll once against
the cumulative transition row and stay put if no bucket is hit. -/
def tryTransition (state : RegimeState) (allow_transitions : Bool) (roll : ℚ) : Regime :=
  if ¬allow_transitions then state.current
  else if state.time_in_regime < state.regime_duration then state.current
  else
    match walkRow roll (Regime.ALL.zip (TRANSITION_PROB state.current)) 0 with
    | some r => r
    | none => state.current

/-! ## Scenarios (src/scenario.rs) -/

/-- Named scenario, mirroring enum Scenario in src/scenario.rs. -/
inductive Scenario where
  | Normal
  | Crash
  | Volatile
  | FlashCrash
  | Rally
deriving DecidableEq, Repr

/-- Scenario profile, mirroring struct ScenarioConfig in src/scenario.rs. -/
structure ScenarioConfig where
  starting_regime : Regime
  forced_event_time : ℚ
  forced_regime : Regime
  allow_transitions : Bool
deriving DecidableEq, Repr

/-- ScenarioConfig::from_scenario of src/scenario.rs. -/
def ScenarioConfig.from_scenario : Scenario → ScenarioConfig
  | Scenario.Normal =>
    { starting_regime := Regime.Calm, forced_event_time := -1,
      forced_regime := Regime.Calm, allow_transitions := true }
  | Scenario.Crash =>
    { starting_regime := Regime.Calm, forced_event_time := 10,
      forced_regime := Regime.Crash, allow_transitions := true }
  | Scenario.Volatile =>
    { starting_regime := Regime.Volatile, forced_event_time := -1,
      forced_regime := Regime.Volatile, allow_transitions := false }
  | Scenario.FlashCrash =>
    { starting_regime := Regime.Calm, forced_event_time := 8,
      forced_regime := Regime.Crash, allow_transitions := true }
  | Scenario.Rally =>
    { starting_regime := Regime.Calm, forced_event_time := 10,
      forced_regime := Regime.Rally, allow_transitions := true }

/-! ## Engine state and oracle inputs (src/engine.rs)

The seeded StdRng of the loop is abstracted as an oracle: every value the
loop draws from it in one tick (uniform rolls, distribution samples, the
shuffle and cancel selections, the Poisson counts) is a field of a
TickRand record, and a run consumes a stream of such records.  The
transcendental GBM increment exp(mu dt + sigma sqrt(dt_years) Z) reaches
the tick only as the oracle factor gbm_factor. -/

/-- Resolved configuration fields the tick loop reads, mirroring the
corresponding fields of struct AppConfig in src/config.rs (network,
logging and LogNormal parameters are omitted: the byte sinks are outside
the loop state and the LogNormal samples arrive via the oracle). -/
structure AppConfig where
  scenario : Scenario
  initial_price : ℚ
  tick_interval : ℚ
  tick_size : ℚ
  ttl_min : ℚ
  ttl_max : ℚ
  shock_prob : ℚ
  shock_min_pct : ℚ
  shock_max_pct : ℚ
  throughput_scale : ℚ
  display_interval : ℚ

/-- Runtime-mutable tunables, mirroring struct RuntimeTunables in
src/engine.rs. -/
structure RuntimeTunables where
  throughput_scale : ℚ
  display_interval : ℚ
  shock_prob : ℚ
  paused : Bool
deriving DecidableEq, Repr

/-- A parsed control command, mirroring enum ControlCommand in
src/engine.rs.  The regime command carries the uniform draw its
transition consumes for the new duration; reload carries the three
tunables read back from the config file. -/
inductive ControlCommand where
  | pause
  | resume
  | throughput (v : ℚ)
  | displayInterval (v : ℚ)
  | regime (next : Regime) (dur_u : ℚ)
  | reload (t d sp : ℚ)
  | stats
deriving DecidableEq, Repr

/-- Per-tick randomness drawn by the limit-order generator for one order:
the buy/sell roll, the Exp(offset_lambda) sample, the LogNormal size
sample and the uniform TTL draw. -/
structure LimitRand where
  side_u : ℚ
  offset_draw : ℚ
  size_draw : ℚ
  ttl_u : ℚ

/-- Per-tick randomness drawn by the market-order generator for one
order. -/
structure MarketRand where
  side_u : ℚ
  size_draw : ℚ

/-- All randomness one tick of the loop draws from the RNG. -/
structure TickRand where
  shock_roll : ℚ
  shock_pct_u : ℚ
  dir_u : ℚ
  shockDur_u : ℚ
  forcedDur_u : ℚ
  flash_u : ℚ
  gbm_factor : ℚ
  limitDraws : List LimitRand
  marketDraws : List MarketRand
  shufflePicks : Nat → Nat
  cancelDraw : Nat
  cancelPicks : Nat → Nat
  transition_roll : ℚ
  markovDur_u : ℚ

/-- The whole mutable state of the loop in run (src/engine.rs):
regime state, forced-event flag, mid price, next order id, the
active-order index (modelled as an association list in insertion order),
the simulated clock, the runtime tunables and the display accumulator. -/
structure EngState where
  regime : RegimeState
  forced_event_fired : Bool
  mid : ℚ
  next_id : Nat
  active : List (Nat × Order)
  current_time : ℚ
  runtime : RuntimeTunables
  time_since_display : ℚ
deriving DecidableEq, Repr

/-- One outbound multicast message: an order or a cancel. -/
inductive WireMsg where
  | order (o : Order)
  | cancel (id : Nat) (time : ℚ)
deriving DecidableEq, Repr

/-- Per-interval statistics, mirroring struct TickStats in src/engine.rs;
here collected per tick. -/
structure TickStats where
  limits_generated : Nat
  markets_generated : Nat
  cancels_expired : Nat
  cancels_regime : Nat
  messages_sent : Nat
deriving DecidableEq, Repr

/-- The all-zero statistics record (TickStats::new). -/
def TickStats.zero : TickStats :=
  { limits_generated := 0, markets_generated := 0, cancels_expired := 0,
    cancels_regime := 0, messages_sent := 0 }

/-- Rounding of f64::round: nearest integer, ties away from zero. -/
def roundTiesAway (q : ℚ) : ℤ :=
  if 0 ≤ q then Rat.floor (q + 1/2) else -Rat.floor (-q + 1/2)

/-- Saturating cast of an integer to u32 range, modelling the Rust
float-to-u32 `as` conversion applied after rounding. -/
def u32sat (z : ℤ) : Nat := min z.toNat (2 ^ 32 - 1)

/-- Construction of one limit order in the generation loop of run
(src/engine.rs lines 502-526): side by buy_prob, offset equal to
half_spread plus the exponential draw, raw price mid minus offset for
buys and mid plus offset for sells, price
snapped by (raw_price / tick_size).round() * tick_size, size
max(1, round(LogNormal sample)), TTL uniform in the configured window. -/
def genLimit (p : RegimeParams) (cfg : AppConfig) (mid t : ℚ) (id : Nat)
    (d : LimitRand) : Order :=
  let side := if d.side_u < p.buy_prob then Side.Buy else Side.Sell
  let offset := p.half_spread + d.offset_draw
  let raw_price := match side with
    | Side.Buy => mid - offset
    | Side.Sell => mid + offset
  let price := (roundTiesAway (raw_price / cfg.tick_size) : ℚ) * cfg.tick_size
  let size := max 1 (u32sat (roundTiesAway d.size_draw))
  { id := id, side := side, order_type := OrderType.Limit, price := price,
    size := size, created_at := t,
    ttl := cfg.ttl_min + d.ttl_u * (cfg.ttl_max - cfg.ttl_min) }

/-- Construction of one market order in the generation loop of run
(src/engine.rs lines 536-558): sentinel price 999999 for buys and 0 for
sells, size max(1, round(sample * 0.5 * size_mult)), TTL zero. -/
def genMarket (p : RegimeParams) (t : ℚ) (id : Nat) (d : MarketRand) : Order :=
  let side := if d.side_u < p.buy_prob then Side.Buy else Side.Sell
  let price : ℚ := match side with
    | Side.Buy => 999999
    | Side.Sell => 0
  let raw_size := d.size_draw * (1/2) * p.size_mult
  let size := max 1 (u32sat (roundTiesAway raw_size))
  { id := id, side := side, order_type := OrderType.Market, price := price,
    size := size, created_at := t, ttl := 0 }

/-- The limit-generation loop: one order per draw, ids assigned from
next_id upward in generation order. -/
def genLimits (p : RegimeParams) (cfg : AppConfig) (mid t : ℚ) :
    Nat → List LimitRand → List Order
  | _, [] => []
  | i, d :: ds => genLimit p cfg mid t i d :: genLimits p cfg mid t (i + 1) ds

/-- The market-generation loop: one order per draw, ids continuing from
the limit batch. -/
def genMarkets (p : RegimeParams) (t : ℚ) : Nat → List MarketRand → List Order
  | _, [] => []
  | i, d :: ds => genMarket p t i d :: genMarkets p t (i + 1) ds

/-- Oracle-driven uniform shuffle of the tick batch, modelling
tick_orders.shuffle(&mut rng): at each step the oracle pick selects the
next element of the permutation, and the element is removed from the
pool. -/
def shuffleGo (picks : Nat → Nat) : Nat → Nat → List Order → List Order
  | 0, _, xs => xs
  | fuel + 1, k, xs =>
    if h : xs = [] then []
    else
      let x := xs.get ⟨picks k % xs.length, Nat.mod_lt _ (List.length_pos.mpr h)⟩
      x :: shuffleGo picks fuel (k + 1) (xs.erase x)

/-- Oracle-driven uniform shuffle of the tick batch (entry point): the
pool size bounds the number of selection steps. -/
def shuffleSel (picks : Nat → Nat) (k : Nat) (xs : List Order) : List Order :=
  shuffleGo picks xs.length k xs

/-- HashMap::insert on the association-list model of the active-order
index: replace in place if the key is present, append otherwise. -/
def assocInsert (l : List (Nat × Order)) (k : Nat) (v : Order) : List (Nat × Order) :=
  if l.any (fun q => q.1 == k) then
    l.map (fun q => if q.1 = k then (k, v) else q)
  else l ++ [(k, v)]

/-- HashMap::remove on the association-list model. -/
def assocRemove (l : List (Nat × Order)) (k : Nat) : List (Nat × Order) :=
  l.filter (fun q => q.1 != k)

/-- The keys.choose step of the cancellation loop: recollect the key
list of the non-empty index and select the entry the oracle pick
points at (the rand crate chooses a uniform index into the key
vector). -/
def pickKey (picks : Nat → Nat) (k : Nat) (act : List (Nat × Order)) (h : ¬act = []) : Nat :=
  (act.map Prod.fst).get ⟨picks k % (act.map Prod.fst).length,
    Nat.mod_lt _ (by simpa [List.length_pos] using h)⟩

/-- The regime-driven cancellation loop of run (src/engine.rs lines
595-608): count iterations, each recollecting the key list, choosing one
key by the oracle pick, emitting a cancel and removing the key;
stops early if the index empties. -/
def regimeCancels (picks : Nat → Nat) (t : ℚ) :
    Nat → Nat → List (Nat × Order) → List (Nat × Order) × List WireMsg
  | 0, _, act => (act, [])
  | count + 1, k, act =>
    if h : act = [] then (act, [])
    else
      let pick := pickKey picks k act h
      let rest := regimeCancels picks t count (k + 1) (assocRemove act pick)
      (rest.1, WireMsg.cancel pick t :: rest.2)

/-- The forced-scenario-event block of run (src/engine.rs lines
418-434): when not yet fired, the scenario has a positive
forced_event_time and the clock has reached it, mark fired and
transition to the forced regime; the flash-crash scenario then overrides
the new duration with 3 plus four times a fresh uniform draw. -/
def forcedEventPhase (cfg : AppConfig) (r : TickRand) (s0 : EngState) : EngState :=
  let scn := ScenarioConfig.from_scenario cfg.scenario
  if ¬s0.forced_event_fired ∧ scn.forced_event_time > 0 ∧
      s0.current_time ≥ scn.forced_event_time then
    let sa := { s0 with forced_event_fired := true,
                        regime := s0.regime.transition_to scn.forced_regime r.forcedDur_u }
    if cfg.scenario = Scenario.FlashCrash then
      { sa with regime := { sa.regime with regime_duration := 3 + r.flash_u * 4 } }
    else sa
  else s0

/-- The shock block of run (src/engine.rs lines 437-465): with
probability shock_prob, multiply mid by 1 plus or minus the sampled
percentage, clamp to tick_size, and from calm or recovery transition to
crash on a downward shock and rally on an upward one. -/
def shockPhase (cfg : AppConfig) (r : TickRand) (s1 : EngState) : EngState :=
  if r.shock_roll < s1.runtime.shock_prob then
    let shock_pct := cfg.shock_min_pct + r.shock_pct_u * (cfg.shock_max_pct - cfg.shock_min_pct)
    let dir : ℚ := if r.dir_u < 1/2 then 1 else -1
    let sb := { s1 with mid := max (s1.mid * (1 + dir * shock_pct)) cfg.tick_size }
    if sb.regime.current = Regime.Calm ∨ sb.regime.current = Regime.Recovery then
      let next := if dir < 0 then Regime.Crash else Regime.Rally
      { sb with regime := sb.regime.transition_to next r.shockDur_u }
    else sb
  else s1

/-- The GBM mid update of run (src/engine.rs lines 470-478): mid is
multiplied by exp(mu dt_seconds + sigma sqrt(dt_years) Z) and clamped to
tick_size; the positive exponential factor is transcendental and is
supplied by the oracle as gbm_factor. -/
def gbmPhase (cfg : AppConfig) (r : TickRand) (s : EngState) : EngState :=
  { s with mid := max (s.mid * r.gbm_factor) cfg.tick_size }

/-- The limit-order Poisson count with throughput scaling: a positive
rate draws the oracle count (the length of the oracle draw list), a
non-positive rate generates nothing. -/
def effLimitDraws (cfg : AppConfig) (p : RegimeParams) (scale : ℚ) (r : TickRand) :
    List LimitRand :=
  if 0 < p.limit_rate * scale * cfg.tick_interval then r.limitDraws else []

/-- The market-order Poisson count with throughput scaling. -/
def effMarketDraws (cfg : AppConfig) (p : RegimeParams) (scale : ℚ) (r : TickRand) :
    List MarketRand :=
  if 0 < p.market_rate * scale * cfg.tick_interval then r.marketDraws else []

/-- The cancellation Poisson count with throughput scaling. -/
def effCancelDraw (cfg : AppConfig) (p : RegimeParams) (scale : ℚ) (r : TickRand) : Nat :=
  if 0 < p.cancel_rate * scale * cfg.tick_interval then r.cancelDraw else 0

/-- The send loop of run (src/engine.rs lines 565-571): every order of
the shuffled batch is sent; limit orders are inserted into the
active-order index, market orders are not. -/
def insertOrders (a : List (Nat × Order)) (os : List Order) : List (Nat × Order) :=
  os.foldl (fun acc o => if o.order_type = OrderType.Limit then assocInsert acc o.id o else acc) a

/-- The TTL-expiry collection of run (src/engine.rs lines 574-578): ids
of the active orders with positive TTL whose age has reached it. -/
def expiredIdsOf (t : ℚ) (a : List (Nat × Order)) : List Nat :=
  (a.filter (fun q => decide (0 < q.2.ttl ∧ q.2.ttl ≤ t - q.2.created_at))).map Prod.fst

/-- Removal of a list of ids from the active-order index, one
HashMap::remove per id. -/
def removeAllIds (a : List (Nat × Order)) (ids : List Nat) : List (Nat × Order) :=
  ids.foldl assocRemove a

/-- The regime-transition block of run (src/engine.rs lines 626-630):
advance time_in_regime by a tick, roll try_transition, and transition on
a change. -/
def markovPhase (cfg : AppConfig) (r : TickRand) (scn : ScenarioConfig)
    (st : RegimeState) : RegimeState :=
  let rst := { st with time_in_regime := st.time_in_regime + cfg.tick_interval }
  let next := tryTransition rst scn.allow_transitions r.transition_roll
  if next ≠ rst.current then rst.transition_to next r.markovDur_u else rst

/-- One unpaused pass of the loop body of run (src/engine.rs lines
417-633), after the command drain: forced scenario event, shock event,
GBM mid update, order generation with throughput scaling, shuffle and
send, TTL expiry, regime-driven cancellations, display rollup, Markov
regime transition, clock advance.  Returns the new state, the wire
messages sent this tick in send order, and this tick's statistics
increments. -/
def pricePhases (cfg : AppConfig) (r : TickRand) (s0 : EngState) : EngState :=
  gbmPhase cfg r (shockPhase cfg r (forcedEventPhase cfg r s0))

/-- The regime parameters the tick reads after the shock block (the GBM
update does not change the regime, so these are the parameters of lines
467 and 482 of src/engine.rs). -/
def tickParams (s : EngState) : RegimeParams := regimeParams s.regime.current

/-- The Poisson limit count of this tick (applied to the state after the
price phases). -/
def tickLDraws (cfg : AppConfig) (r : TickRand) (s : EngState) : List LimitRand :=
  effLimitDraws cfg (tickParams s) s.runtime.throughput_scale r

/-- The Poisson market count of this tick. -/
def tickMDraws (cfg : AppConfig) (r : TickRand) (s : EngState) : List MarketRand :=
  effMarketDraws cfg (tickParams s) s.runtime.throughput_scale r

/-- The limit batch of this tick, ids from next_id upward. -/
def tickLimits (cfg : AppConfig) (r : TickRand) (s : EngState) : List Order :=
  genLimits (tickParams s) cfg s.mid s.current_time s.next_id (tickLDraws cfg r s)

/-- The market batch of this tick, ids continuing after the limits. -/
def tickMarkets (cfg : AppConfig) (r : TickRand) (s : EngState) : List Order :=
  genMarkets (tickParams s) s.current_time (s.next_id + (tickLDraws cfg r s).length)
    (tickMDraws cfg r s)

/-- The shuffled combined batch sent this tick. -/
def tickShuffled (cfg : AppConfig) (r : TickRand) (s : EngState) : List Order :=
  shuffleSel r.shufflePicks 0 (tickLimits cfg r s ++ tickMarkets cfg r s)

/-- The active-order index after the send loop inserted this tick's
limit orders. -/
def tickActive1 (cfg : AppConfig) (r : TickRand) (s : EngState) : List (Nat × Order) :=
  insertOrders s.active (tickShuffled cfg r s)

/-- The ids collected by the TTL-expiry scan this tick. -/
def tickExpired (cfg : AppConfig) (r : TickRand) (s : EngState) : List Nat :=
  expiredIdsOf s.current_time (tickActive1 cfg r s)

/-- The active-order index after the TTL expiries were removed. -/
def tickActive2 (cfg : AppConfig) (r : TickRand) (s : EngState) : List (Nat × Order) :=
  removeAllIds (tickActive1 cfg r s) (tickExpired cfg r s)

/-- The Poisson cancellation count of this tick. -/
def tickNumCancels (cfg : AppConfig) (r : TickRand) (s : EngState) : Nat :=
  effCancelDraw cfg (tickParams s) s.runtime.throughput_scale r

/-- The regime-driven cancellation pass of this tick: the remaining
index and the cancel messages it emitted. -/
def tickRC (cfg : AppConfig) (r : TickRand) (s : EngState) :
    List (Nat × Order) × List WireMsg :=
  if 0 < tickNumCancels cfg r s ∧ tickActive2 cfg r s ≠ [] then
    regimeCancels r.cancelPicks s.current_time
      (min (tickNumCancels cfg r s) (tickActive2 cfg r s).length) 0 (tickActive2 cfg r s)
  else (tickActive2 cfg r s, [])

/-- The display accumulator after the rollup check. -/
def tickDisplayAcc (cfg : AppConfig) (s : EngState) : ℚ :=
  if s.time_since_display + cfg.tick_interval ≥ s.runtime.display_interval then 0
  else s.time_since_display + cfg.tick_interval

def tickCore (cfg : AppConfig) (r : TickRand) (s0 : EngState) :
    EngState × List WireMsg × TickStats :=
  let s3 := pricePhases cfg r s0
  ({ s3 with active := (tickRC cfg r s3).1,
             next_id := s3.next_id + (tickLDraws cfg r s3).length + (tickMDraws cfg r s3).length,
             regime := markovPhase cfg r (ScenarioConfig.from_scenario cfg.scenario) s3.regime,
             current_time := s3.current_time + cfg.tick_interval,
             time_since_display := tickDisplayAcc cfg s3 },
   (tickShuffled cfg r s3).map WireMsg.order ++
     (tickExpired cfg r s3).map (fun i => WireMsg.cancel i s3.current_time) ++
     (tickRC cfg r s3).2,
   { limits_generated := (tickLDraws cfg r s3).length,
     markets_generated := (tickMDraws cfg r s3).length,
     cancels_expired := (tickExpired cfg r s3).length,
     cancels_regime := (tickRC cfg r s3).2.length,
     messages_sent := (tickShuffled cfg r s3).length + (tickExpired cfg r s3).length +
       (tickRC cfg r s3).2.length })

/-- Application of one drained control command to the running state,
mirroring the match in run (src/engine.rs lines 352-408).  Out-of-range
throughput or display values only produce an event line and change
nothing; the regime command transitions unconditionally; reload installs
the three re-readable tunables; stats only prints. -/
def applyCmd (s : EngState) : ControlCommand → EngState
  | ControlCommand.pause => { s with runtime := { s.runtime with paused := true } }
  | ControlCommand.resume => { s with runtime := { s.runtime with paused := false } }
  | ControlCommand.throughput v =>
    if 0 ≤ v then { s with runtime := { s.runtime with throughput_scale := v } } else s
  | ControlCommand.displayInterval v =>
    if 0 < v then { s with runtime := { s.runtime with display_interval := v } } else s
  | ControlCommand.regime next u => { s with regime := s.regime.transition_to next u }
  | ControlCommand.reload t d sp =>
    { s with runtime := { s.runtime with throughput_scale := t, display_interval := d,
                                          shock_prob := sp } }
  | ControlCommand.stats => s

/-- The command drain at the top of each tick: all pending commands are
applied in arrival order. -/
def drainCommands (s : EngState) (cs : List ControlCommand) : EngState :=
  cs.foldl applyCmd s

/-- One full iteration of the while loop in run: drain the command
queue, then either sleep through the tick (paused: the clock does not
advance and nothing is sent) or execute the tick body. -/
def engineStep (cfg : AppConfig) (r : TickRand) (cs : List ControlCommand)
    (s : EngState) : EngState × List WireMsg × TickStats :=
  let s1 := drainCommands s cs
  if s1.runtime.paused then (s1, [], TickStats.zero)
  else tickCore cfg r s1

/-- The loop state just before the first iteration of run: starting
regime from the scenario (with its initial duration draw), mid at the
initial price, id counter zero, empty index, clock zero, tunables from
the configuration. -/
def initState (cfg : AppConfig) (dur_u : ℚ) : EngState :=
  { regime := RegimeState.mkNew (ScenarioConfig.from_scenario cfg.scenario).starting_regime dur_u
    forced_event_fired := false
    mid := cfg.initial_price
    next_id := 0
    active := []
    current_time := 0
    runtime := { throughput_scale := cfg.throughput_scale,
                 display_interval := cfg.display_interval,
                 shock_prob := cfg.shock_prob, paused := false }
    time_since_display := 0 }

/-- n iterations of the loop starting at tick index i, consuming the
oracle stream rand and the control stream ctrl; returns the final state
and the concatenated wire-message stream. -/
def runFrom (cfg : AppConfig) (rand : Nat → TickRand) (ctrl : Nat → List ControlCommand) :
    Nat → Nat → EngState → EngState × List WireMsg
  | _, 0, s => (s, [])
  | i, n + 1, s =>
    let one := engineStep cfg (rand i) (ctrl i) s
    let rest := runFrom cfg rand ctrl (i + 1) n one.1
    (rest.1, one.2.1 ++ rest.2)

/-- The wire-message stream of a run of n ticks from the initial state. -/
def runMsgs (cfg : AppConfig) (rand : Nat → TickRand) (ctrl : Nat → List ControlCommand)
    (n : Nat) (dur_u : ℚ) : List WireMsg :=
  (runFrom cfg rand ctrl 0 n (initState cfg dur_u)).2

/-- The order ids carried by the ORDER messages of a stream, in send
order. -/
def orderIds (ms : List WireMsg) : List Nat :=
  ms.filterMap (fun m => match m with
    | WireMsg.order o => some o.id
    | WireMsg.cancel _ _ => none)

/-- Scan of a message stream checking the cancel discipline: a cancel is
legal only for an id that an earlier LIMIT order message carried and that
no earlier cancel carried.  Returns the accumulated limit-order ids and
cancelled ids, or none on a violation. -/
def traceScan : List Nat → List Nat → List WireMsg → Option (List Nat × List Nat)
  | L, C, [] => some (L, C)
  | L, C, WireMsg.order o :: rest =>
    traceScan (if o.order_type = OrderType.Limit then o.id :: L else L) C rest
  | L, C, WireMsg.cancel i _ :: rest =>
    if i ∈ L ∧ i ∉ C then traceScan L (i :: C) rest else none

/-- A message stream obeys the cancel discipline. -/
def traceOk (ms : List WireMsg) : Bool := (traceScan [] [] ms).isSome

/-- The keys of the active-order index. -/
def keysOf (a : List (Nat × Order)) : List Nat := a.map Prod.fst

/-- The structural invariant of the active-order index the loop
maintains: keys are distinct and below the id counter. -/
def ActiveInv (s : EngState) : Prop :=
  (keysOf s.active).Nodup ∧ ∀ k ∈ keysOf s.active, k < s.next_id

/-- The invariant tying the loop state to a trace scan in progress: L
holds the limit-order ids already announced on the wire and C the ids
already cancelled; every active id was announced as a limit order, no
active id was cancelled, and both accumulators sit below the id
counter. -/
def TraceInv (L C : List Nat) (s : EngState) : Prop :=
  (keysOf s.active).Nodup ∧
  (∀ k ∈ keysOf s.active, k ∈ L) ∧
  (∀ k ∈ keysOf s.active, k ∉ C) ∧
  (∀ k ∈ L, k < s.next_id) ∧
  (∀ k ∈ C, k < s.next_id)

/-! ## The HashMap iteration order of the active-order index

The active-order index of run is a std HashMap whose default hasher
is seeded per process, independently of the engine's StdRng seed.  The
loop reads the map's iteration order at two places per tick: the
TTL-expiry scan (src/engine.rs lines 574-578) iterates the entries, and
every iteration of the cancellation loop collects the key vector
(src/engine.rs line 601) before the seeded index pick.  A TickHash
record supplies these per-process orders as an oracle separate from the
TickRand stream of seeded draws; at every read a real map yields some
permutation of the stored entries. -/

/-- Per-tick iteration orders of the std HashMap backing the
active-order index: the entry order seen by the TTL-expiry scan, and
the key vector collected at step k of the cancellation loop. -/
structure TickHash where
  iterOrd : List (Nat × Order) → List (Nat × Order)
  keysOrd : Nat → List (Nat × Order) → List Nat

/-- The regime-driven cancellation loop of run (src/engine.rs lines
595-608) with the key vector of each iteration collected in the map's
iteration order: the seeded pick chooses only an index into that
vector, so which id is cancelled depends on the per-process hash
order. -/
def regimeCancelsH (ord : Nat → List (Nat × Order) → List Nat) (picks : Nat → Nat)
    (t : ℚ) : Nat → Nat → List (Nat × Order) → List (Nat × Order) × List WireMsg
  | 0, _, act => (act, [])
  | count + 1, k, act =>
    if act = [] then (act, [])
    else
      let keys := ord k act
      let pick := keys.getD (picks k % keys.length) 0
      let rest := regimeCancelsH ord picks t count (k + 1) (assocRemove act pick)
      (rest.1, WireMsg.cancel pick t :: rest.2)

/-- The ids collected by the TTL-expiry scan when the map is iterated
in the oracle's order (src/engine.rs lines 574-578). -/
def tickExpiredH (cfg : AppConfig) (r : TickRand) (ho : TickHash) (s : EngState) :
    List Nat :=
  expiredIdsOf s.current_time (ho.iterOrd (tickActive1 cfg r s))

/-- The active-order index after the TTL expiries were removed, under
the iteration-order oracle. -/
def tickActive2H (cfg : AppConfig) (r : TickRand) (ho : TickHash) (s : EngState) :
    List (Nat × Order) :=
  removeAllIds (tickActive1 cfg r s) (tickExpiredH cfg r ho s)

/-- The regime-driven cancellation pass under the iteration-order
oracle. -/
def tickRCH (cfg : AppConfig) (r : TickRand) (ho : TickHash) (s : EngState) :
    List (Nat × Order) × List WireMsg :=
  if 0 < tickNumCancels cfg r s ∧ tickActive2H cfg r ho s ≠ [] then
    regimeCancelsH ho.keysOrd r.cancelPicks s.current_time
      (min (tickNumCancels cfg r s) (tickActive2H cfg r ho s).length) 0
      (tickActive2H cfg r ho s)
  else (tickActive2H cfg r ho s, [])

/-- One unpaused pass of the loop body with the HashMap iteration order
explicit: identical to tickCore except that the expiry scan and the
cancellation key vectors follow the iteration-order oracle. -/
def tickCoreH (cfg : AppConfig) (r : TickRand) (ho : TickHash) (s0 : EngState) :
    EngState × List WireMsg × TickStats :=
  let s3 := pricePhases cfg r s0
  ({ s3 with active := (tickRCH cfg r ho s3).1,
             next_id := s3.next_id + (tickLDraws cfg r s3).length + (tickMDraws cfg r s3).length,
             regime := markovPhase cfg r (ScenarioConfig.from_scenario cfg.scenario) s3.regime,
             current_time := s3.current_time + cfg.tick_interval,
             time_since_display := tickDisplayAcc cfg s3 },
   (tickShuffled cfg r s3).map WireMsg.order ++
     (tickExpiredH cfg r ho s3).map (fun i => WireMsg.cancel i s3.current_time) ++
     (tickRCH cfg r ho s3).2,
   { limits_generated := (tickLDraws cfg r s3).length,
     markets_generated := (tickMDraws cfg r s3).length,
     cancels_expired := (tickExpiredH cfg r ho s3).length,
     cancels_regime := (tickRCH cfg r ho s3).2.length,
     messages_sent := (tickShuffled cfg r s3).length + (tickExpiredH cfg r ho s3).length +
       (tickRCH cfg r ho s3).2.length })

/-- One full loop iteration under the iteration-order oracle. -/
def engineStepH (cfg : AppConfig) (r : TickRand) (cs : List ControlCommand)
    (ho : TickHash) (s : EngState) : EngState × List WireMsg × TickStats :=
  let s1 := drainCommands s cs
  if s1.runtime.paused then (s1, [], TickStats.zero)
  else tickCoreH cfg r ho s1

/-- n loop iterations from tick index i, consuming the seeded oracle
stream rand, the control stream ctrl and the per-process
iteration-order stream hash. -/
def runFromH (cfg : AppConfig) (rand : Nat → TickRand) (ctrl : Nat → List ControlCommand)
    (hash : Nat → TickHash) : Nat → Nat → EngState → EngState × List WireMsg
  | _, 0, s => (s, [])
  | i, n + 1, s =>
    let one := engineStepH cfg (rand i) (ctrl i) (hash i) s
    let rest := runFromH cfg rand ctrl hash (i + 1) n one.1
    (rest.1, one.2.1 ++ rest.2)

/-- The wire-message stream of an n-tick run under an iteration-order
stream. -/
def runMsgsH (cfg : AppConfig) (rand : Nat → TickRand) (ctrl : Nat → List ControlCommand)
    (hash : Nat → TickHash) (n : Nat) (dur_u : ℚ) : List WireMsg :=
  (runFromH cfg rand ctrl hash 0 n (initState cfg dur_u)).2

/-! ## Concrete instances used by witnesses and counterexamples -/

/-- A resolved configuration with the documented defaults and the normal
scenario (shock probability set to zero to keep witness runs quiet). -/
def cfgNormal : AppConfig :=
  { scenario := Scenario.Normal, initial_price := 100, tick_interval := 1/10,
    tick_size := 1/100, ttl_min := 1, ttl_max := 30, shock_prob := 0,
    shock_min_pct := 2/100, shock_max_pct := 6/100, throughput_scale := 1,
    display_interval := 1 }

/-- The default configuration under the volatile scenario. -/
def cfgVolatile : AppConfig := { cfgNormal with scenario := Scenario.Volatile }

/-- The default configuration under the crash scenario. -/
def cfgCrash : AppConfig := { cfgNormal with scenario := Scenario.Crash }

/-- A tick oracle that draws nothing: no shock, unit GBM factor, empty
order batches, zero cancellation draw. -/
def quietRand : TickRand :=
  { shock_roll := 1, shock_pct_u := 0, dir_u := 0, shockDur_u := 0, forcedDur_u := 1/2,
    flash_u := 1/2, gbm_factor := 1, limitDraws := [], marketDraws := [],
    shufflePicks := fun _ => 0, cancelDraw := 0, cancelPicks := fun _ => 0,
    transition_roll := 1, markovDur_u := 0 }

/-- A limit-order draw with a small offset. -/
def limitDrawA : LimitRand := { side_u := 0, offset_draw := 1, size_draw := 10, ttl_u := 0 }

/-- A limit-order draw whose exponential offset exceeds the mid price. -/
def limitDrawFar : LimitRand := { side_u := 0, offset_draw := 200, size_draw := 10, ttl_u := 0 }

/-- A tick oracle generating two limit orders and shuffling them into
reversed order (every selection pick is the second element). -/
def swapRand : TickRand :=
  { quietRand with limitDraws := [limitDrawA, limitDrawA], shufflePicks := fun _ => 1 }

/-- A tick oracle generating exactly one limit order. -/
def oneLimitRand : TickRand := { quietRand with limitDraws := [limitDrawA] }

/-- A tick oracle generating one limit order whose offset draw exceeds
the mid price. -/
def farRand : TickRand := { quietRand with limitDraws := [limitDrawFar] }

/-- The engine state of the crash scenario at simulated time 10. -/
def stateAt10 : EngState := { initState cfgCrash 0 with current_time := 10 }

/-- The insertion-order TickHash: the map iterates its entries in the
order they were stored and collects the key vectors likewise (one
realizable per-process hash order). -/
def hashCanon : TickHash :=
  { iterOrd := fun a => a, keysOrd := fun _ a => keysOf a }

/-- A TickHash collecting every key vector in reversed insertion order
(another realizable per-process hash order). -/
def hashRev : TickHash :=
  { iterOrd := fun a => a, keysOrd := fun _ a => (keysOf a).reverse }

/-- A tick oracle generating two limit orders and drawing one
regime-driven cancellation. -/
def twoLimitCancelRand : TickRand :=
  { quietRand with limitDraws := [limitDrawA, limitDrawA], cancelDraw := 1 }

/-! ## Bridging lemmas -/

/-- The executable rational floor agrees with the floor of the ordered
field structure. -/
theorem ratFloor_eq_intFloor (q : ℚ) : Rat.floor q = ⌊q⌋ :=
  (Rat.floor_def' q).trans Rat.floor_def.symm

/-! ## Claim C2: binary wire lengths -/

/-- Claim C2, corrected: for every Order the binary order encoding is
exactly 34 bytes (2 magic, 1 version, 1 type, 8 id, 1 side, 1 kind,
8 price, 4 size, 8 time), not 31 as claimed, and for every id and time
the binary cancel encoding is exactly 20 bytes as claimed. -/
theorem claim_C2_amended (o : Order) (id : Nat) (t : ℚ) :
    (Order.to_wire_binary o).length = 34 ∧ (cancel_to_wire_binary id t).length = 20 := by
  refine ⟨?_, ?_⟩ <;>
    simp [Order.to_wire_binary, cancel_to_wire_binary, u64le, u32le, f64le]

/-- Claim C2 counterexample: a concrete order whose binary encoding does
not have the claimed length 31 (it has 34 bytes). -/
theorem claim_C2_counterexample :
    (Order.to_wire_binary
      { id := 0, side := Side.Buy, order_type := OrderType.Limit, price := 100,
        size := 1, created_at := 0, ttl := 1 }).length ≠ 31 := by
  decide

/-! ## Claim C9: the dt_years computation -/

set_option exponentiation.threshold 500 in
set_option maxRecDepth 40000 in
unseal Rat.add Rat.mul Rat.inv Rat.sub in
/-- Claim C9, corrected: the program computes dt_years as the IEEE-754
evaluation of 1/(252*6.5*3600) * tick_interval / 0.1 * 0.1, which is not
always equal to the IEEE-754 value of tick_interval/(252*6.5*3600); the
two agree at the common tick intervals 0.1 (the default), 0.05, 0.2,
0.25, 0.5, 1.0 and 2.0 (each taken as its nearest binary64 value). -/
theorem claim_C9_amended :
    dt_years (roundF64 (1/10)) = dt_years_specFormula (roundF64 (1/10)) ∧
    dt_years (roundF64 (1/20)) = dt_years_specFormula (roundF64 (1/20)) ∧
    dt_years (roundF64 (1/5)) = dt_years_specFormula (roundF64 (1/5)) ∧
    dt_years (1/4) = dt_years_specFormula (1/4) ∧
    dt_years (1/2) = dt_years_specFormula (1/2) ∧
    dt_years 1 = dt_years_specFormula 1 ∧
    dt_years 2 = dt_years_specFormula 2 := by
  refine ⟨?_, ?_, ?_, ?_, ?_, ?_, ?_⟩ <;> decide

set_option exponentiation.threshold 500 in
set_option maxRecDepth 40000 in
unseal Rat.add Rat.mul Rat.inv Rat.sub in
/-- Claim C9 counterexample: at tick_interval 3.0 (exactly representable
in binary64) the computed dt_years differs from the IEEE-754 evaluation
of tick_interval/(252*6.5*3600) by one unit in the last place. -/
theorem claim_C9_counterexample : dt_years 3 ≠ dt_years_specFormula 3 := by
  decide

/-! ## Claim C6: the forced scenario event -/

/-- Claim C6: for every scenario whose profile carries a non-negative
forced event time (crash, flash-crash and rally; the profiles of the
source carry no time equal to zero, so the source guard
forced_event_time greater than zero agrees with non-negativity), on an
unpaused tick where the event has not fired and the clock has reached
the forced time, the forced-event block marks the event fired,
transitions to the scenario's forced regime, resets time_in_regime and
resamples the duration inside the new regime's window (the flash-crash
override lands in 3 to 7 seconds, inside the crash window). -/
theorem claim_C6 (sc : Scenario) (cfg : AppConfig) (r : TickRand) (s : EngState)
    (hsc : cfg.scenario = sc)
    (hfe : 0 ≤ (ScenarioConfig.from_scenario sc).forced_event_time)
    (hnf : s.forced_event_fired = false)
    (ht : (ScenarioConfig.from_scenario sc).forced_event_time ≤ s.current_time)
    (hu1 : 0 ≤ r.forcedDur_u) (hu2 : r.forcedDur_u ≤ 1)
    (hv1 : 0 ≤ r.flash_u) (hv2 : r.flash_u ≤ 1) :
    (forcedEventPhase cfg r s).forced_event_fired = true ∧
    (forcedEventPhase cfg r s).regime.current =
      (ScenarioConfig.from_scenario sc).forced_regime ∧
    (forcedEventPhase cfg r s).regime.time_in_regime = 0 ∧
    (regimeParams (ScenarioConfig.from_scenario sc).forced_regime).min_duration ≤
      (forcedEventPhase cfg r s).regime.regime_duration ∧
    (forcedEventPhase cfg r s).regime.regime_duration ≤
      (regimeParams (ScenarioConfig.from_scenario sc).forced_regime).max_duration := by
  cases sc with
  | Normal => exact absurd hfe (by norm_num [ScenarioConfig.from_scenario])
  | Volatile => exact absurd hfe (by norm_num [ScenarioConfig.from_scenario])
  | Crash =>
    rw [ScenarioConfig.from_scenario] at ht ⊢
    unfold forcedEventPhase
    rw [hsc, ScenarioConfig.from_scenario]
    rw [if_pos ⟨by simp [hnf], by norm_num, ht⟩, if_neg (by simp [hsc])]
    refine ⟨rfl, rfl, rfl, ?_, ?_⟩ <;>
      simp [RegimeState.transition_to, randRegimeDuration, regimeParams] <;> nlinarith
  | Rally =>
    rw [ScenarioConfig.from_scenario] at ht ⊢
    unfold forcedEventPhase
    rw [hsc, ScenarioConfig.from_scenario]
    rw [if_pos ⟨by simp [hnf], by norm_num, ht⟩, if_neg (by simp [hsc])]
    refine ⟨rfl, rfl, rfl, ?_, ?_⟩ <;>
      simp [RegimeState.transition_to, randRegimeDuration, regimeParams] <;> nlinarith
  | FlashCrash =>
    rw [ScenarioConfig.from_scenario] at ht ⊢
    unfold forcedEventPhase
    rw [hsc, ScenarioConfig.from_scenario]
    rw [if_pos ⟨by simp [hnf], by norm_num, ht⟩, if_pos (by simp [hsc])]
    refine ⟨rfl, rfl, rfl, ?_, ?_⟩ <;>
      simp [RegimeState.transition_to, randRegimeDuration, regimeParams] <;> nlinarith

/-- Witness for claim C6: the crash scenario at simulated time 10 with a
middle duration draw fires and lands in the crash regime with a duration
inside its 2 to 10 second window. -/
theorem claim_C6_witness :
    (forcedEventPhase cfgCrash quietRand stateAt10).forced_event_fired = true ∧
    (forcedEventPhase cfgCrash quietRand stateAt10).regime.current =
      (ScenarioConfig.from_scenario Scenario.Crash).forced_regime ∧
    (forcedEventPhase cfgCrash quietRand stateAt10).regime.time_in_regime = 0 ∧
    (regimeParams (ScenarioConfig.from_scenario Scenario.Crash).forced_regime).min_duration ≤
      (forcedEventPhase cfgCrash quietRand stateAt10).regime.regime_duration ∧
    (forcedEventPhase cfgCrash quietRand stateAt10).regime.regime_duration ≤
      (regimeParams (ScenarioConfig.from_scenario Scenario.Crash).forced_regime).max_duration :=
  claim_C6 Scenario.Crash cfgCrash quietRand stateAt10 rfl
    (by norm_num [ScenarioConfig.from_scenario]) rfl
    (by norm_num [ScenarioConfig.from_scenario, stateAt10, initState])
    (by norm_num [quietRand]) (by norm_num [quietRand])
    (by norm_num [quietRand]) (by norm_num [quietRand])

/-! ## Claim C10: the regime control command -/

/-- Claim C10: draining a regime control command transitions the regime
state unconditionally (the drain consults no scenario profile, so this
holds under every scenario, including volatile where free transitions
are disabled): the new current regime is the named one, the previous
regime is recorded, time_in_regime resets to zero and the duration is
resampled uniformly inside the named regime's duration window. -/
theorem claim_C10 (s : EngState) (next : Regime) (u : ℚ)
    (hu1 : 0 ≤ u) (hu2 : u ≤ 1) :
    (drainCommands s [ControlCommand.regime next u]).regime.current = next ∧
    (drainCommands s [ControlCommand.regime next u]).regime.previous = s.regime.current ∧
    (drainCommands s [ControlCommand.regime next u]).regime.time_in_regime = 0 ∧
    (regimeParams next).min_duration ≤
      (drainCommands s [ControlCommand.regime next u]).regime.regime_duration ∧
    (drainCommands s [ControlCommand.regime next u]).regime.regime_duration ≤
      (regimeParams next).max_duration := by
  refine ⟨rfl, rfl, rfl, ?_, ?_⟩ <;>
    simp [drainCommands, applyCmd, RegimeState.transition_to, randRegimeDuration] <;>
    cases next <;> simp [regimeParams] <;> nlinarith

/-- Witness for claim C10: commanding the crash regime from the volatile
scenario's initial state takes effect with a duration inside the crash
window. -/
theorem claim_C10_witness :
    (drainCommands (initState cfgVolatile 0)
        [ControlCommand.regime Regime.Crash (1/2)]).regime.current = Regime.Crash ∧
    (drainCommands (initState cfgVolatile 0)
        [ControlCommand.regime Regime.Crash (1/2)]).regime.previous =
      (initState cfgVolatile 0).regime.current ∧
    (drainCommands (initState cfgVolatile 0)
        [ControlCommand.regime Regime.Crash (1/2)]).regime.time_in_regime = 0 ∧
    (regimeParams Regime.Crash).min_duration ≤
      (drainCommands (initState cfgVolatile 0)
        [ControlCommand.regime Regime.Crash (1/2)]).regime.regime_duration ∧
    (drainCommands (initState cfgVolatile 0)
        [ControlCommand.regime Regime.Crash (1/2)]).regime.regime_duration ≤
      (regimeParams Regime.Crash).max_duration :=
  claim_C10 (initState cfgVolatile 0) Regime.Crash (1/2) (by norm_num) (by norm_num)

/-! ## Claim C7: limit prices versus the tick size -/

/-- Every regime's half spread is non-negative. -/
theorem half_spread_nonneg (rg : Regime) : 0 ≤ (regimeParams rg).half_spread := by
  cases rg <;> norm_num [regimeParams]

/-- Price snapping bounds below: when the raw price is at least half a
tick, the snapped price round(raw/tick)*tick is at least one tick. -/
theorem snapPrice_ge (ts raw : ℚ) (hts : 0 < ts) (hraw : ts/2 ≤ raw) :
    ts ≤ (roundTiesAway (raw / ts) : ℚ) * ts := by
  have hhalf : (1:ℚ)/2 ≤ raw / ts := by
    rw [le_div_iff₀ hts]
    linarith
  have h0 : (0:ℚ) ≤ raw / ts := by linarith
  have hm : (1 : ℤ) ≤ roundTiesAway (raw / ts) := by
    rw [roundTiesAway, if_pos h0, ratFloor_eq_intFloor]
    rw [Int.le_floor]
    push_cast
    linarith
  calc ts = 1 * ts := (one_mul ts).symm
    _ ≤ (roundTiesAway (raw / ts) : ℚ) * ts := by
        apply mul_le_mul_of_nonneg_right _ (le_of_lt hts)
        exact_mod_cast hm

/-- Claim C7, corrected: a generated SELL limit order always has price
at least tick_size (for every regime, mid at least tick_size and
non-negative offset draw), and a BUY limit order does whenever the raw
price mid minus (half_spread plus offset) is at least half a tick; with
an unbounded exponential offset the buy raw price can go negative and
the snapped price with it, so the unrestricted claim fails. -/
theorem claim_C7_amended (rg : Regime) (cfg : AppConfig) (mid t : ℚ) (id : Nat)
    (d : LimitRand) (hts : 0 < cfg.tick_size) (hmid : cfg.tick_size ≤ mid)
    (hoff : 0 ≤ d.offset_draw) :
    ((genLimit (regimeParams rg) cfg mid t id d).side = Side.Sell →
      cfg.tick_size ≤ (genLimit (regimeParams rg) cfg mid t id d).price) ∧
    (cfg.tick_size / 2 ≤ mid - ((regimeParams rg).half_spread + d.offset_draw) →
      cfg.tick_size ≤ (genLimit (regimeParams rg) cfg mid t id d).price) := by
  have hhs := half_spread_nonneg rg
  by_cases hside : d.side_u < (regimeParams rg).buy_prob
  · constructor
    · intro hcontra
      simp [genLimit, hside] at hcontra
    · intro hraw
      simp only [genLimit, if_pos hside]
      exact snapPrice_ge _ _ hts hraw
  · have hsell : cfg.tick_size / 2 ≤ mid + ((regimeParams rg).half_spread + d.offset_draw) := by
      linarith
    constructor
    · intro _
      simp only [genLimit, if_neg hside]
      exact snapPrice_ge _ _ hts hsell
    · intro _
      simp only [genLimit, if_neg hside]
      exact snapPrice_ge _ _ hts hsell

/-- Witness for claim C7 as amended: a concrete sell order generated at
the default configuration carries price at least one tick. -/
theorem claim_C7_amended_witness :
    ((genLimit (regimeParams Regime.Calm) cfgNormal 100 0 0
        { side_u := 1, offset_draw := 1, size_draw := 10, ttl_u := 0 }).side = Side.Sell →
      cfgNormal.tick_size ≤ (genLimit (regimeParams Regime.Calm) cfgNormal 100 0 0
        { side_u := 1, offset_draw := 1, size_draw := 10, ttl_u := 0 }).price) ∧
    (cfgNormal.tick_size / 2 ≤ 100 - ((regimeParams Regime.Calm).half_spread + 1) →
      cfgNormal.tick_size ≤ (genLimit (regimeParams Regime.Calm) cfgNormal 100 0 0
        { side_u := 1, offset_draw := 1, size_draw := 10, ttl_u := 0 }).price) :=
  claim_C7_amended Regime.Calm cfgNormal 100 0 0
    { side_u := 1, offset_draw := 1, size_draw := 10, ttl_u := 0 }
    (by norm_num [cfgNormal]) (by norm_num [cfgNormal]) (by norm_num)

set_option maxRecDepth 8000 in
unseal Rat.add Rat.mul Rat.inv Rat.sub in
/-- Claim C7 counterexample: one tick of the loop at the default
configuration, with a single buy limit draw whose exponential offset
draw is 200, emits a limit order whose price is negative, far below the
tick size. -/
theorem claim_C7_counterexample :
    (tickCore cfgNormal farRand (initState cfgNormal 0)).2.1 =
      [WireMsg.order { id := 0, side := Side.Buy, order_type := OrderType.Limit,
                       price := -10003/100, size := 10, created_at := 0, ttl := 1 }] ∧
    (-10003/100 : ℚ) < cfgNormal.tick_size := by
  constructor
  · decide
  · decide

/-! ## Claim C3: the volatile scenario never leaves the volatile regime -/

/-- try_transition returns the current regime when transitions are
disabled. -/
theorem tryTransition_not_allowed (st : RegimeState) (roll : ℚ) :
    tryTransition st false roll = st.current := by
  simp [tryTransition]

/-- The forced-event block is inert for scenarios with a negative forced
event time, such as volatile. -/
theorem forcedEventPhase_volatile (cfg : AppConfig) (r : TickRand) (s : EngState)
    (hsc : cfg.scenario = Scenario.Volatile) : forcedEventPhase cfg r s = s := by
  norm_num [forcedEventPhase, hsc, ScenarioConfig.from_scenario]

/-- The shock block never transitions out of the volatile regime (shock
transitions fire only from calm or recovery). -/
theorem shockPhase_volatile_regime (cfg : AppConfig) (r : TickRand) (s : EngState)
    (h : s.regime.current = Regime.Volatile) :
    (shockPhase cfg r s).regime.current = Regime.Volatile := by
  simp [shockPhase, h]
  split <;> exact h

/-- The GBM update does not touch the regime state. -/
theorem gbmPhase_regime (cfg : AppConfig) (r : TickRand) (s : EngState) :
    (gbmPhase cfg r s).regime = s.regime := rfl

/-- Under a scenario that disables transitions, the Markov block only
advances time_in_regime. -/
theorem markovPhase_volatile_current (cfg : AppConfig) (r : TickRand) (st : RegimeState) :
    (markovPhase cfg r (ScenarioConfig.from_scenario Scenario.Volatile) st).current =
      st.current := by
  simp [markovPhase, ScenarioConfig.from_scenario, tryTransition]

/-- One loop iteration under the volatile scenario with no pending
commands keeps the regime volatile. -/
theorem engineStep_volatile_regime (cfg : AppConfig) (r : TickRand) (s : EngState)
    (hsc : cfg.scenario = Scenario.Volatile)
    (h : s.regime.current = Regime.Volatile) :
    (engineStep cfg r [] s).1.regime.current = Regime.Volatile := by
  unfold engineStep drainCommands
  simp only [List.foldl_nil]
  split_ifs
  · exact h
  · have hreg : (tickCore cfg r s).1.regime =
        markovPhase cfg r (ScenarioConfig.from_scenario cfg.scenario)
          (pricePhases cfg r s).regime := rfl
    show (tickCore cfg r s).1.regime.current = Regime.Volatile
    rw [hreg, hsc, markovPhase_volatile_current]
    unfold pricePhases
    rw [gbmPhase_regime, forcedEventPhase_volatile cfg r s hsc]
    exact shockPhase_volatile_regime cfg r s h

/-- Every run segment under the volatile scenario with no commands keeps
the regime volatile. -/
theorem runFrom_volatile_regime (cfg : AppConfig) (rand : Nat → TickRand)
    (ctrl : Nat → List ControlCommand) (hsc : cfg.scenario = Scenario.Volatile)
    (hctrl : ∀ i, ctrl i = []) :
    ∀ (n i : Nat) (s : EngState), s.regime.current = Regime.Volatile →
      (runFrom cfg rand ctrl i n s).1.regime.current = Regime.Volatile := by
  intro n
  induction n with
  | zero => intro i s h; exact h
  | succ m ih =>
    intro i s h
    show (runFrom cfg rand ctrl (i + 1) m (engineStep cfg (rand i) (ctrl i) s).1).1.regime.current =
      Regime.Volatile
    apply ih
    rw [hctrl i] at *
    exact engineStep_volatile_regime cfg (rand i) s hsc h

/-- Claim C3: under the volatile scenario with no control commands,
every reachable state of the loop (the initial state and the state after
any number of ticks) has current regime Volatile: the scenario starts
volatile, its forced event never fires, shock transitions apply only
from calm or recovery, and free Markov transitions are disabled. -/
theorem claim_C3 (cfg : AppConfig) (rand : Nat → TickRand)
    (ctrl : Nat → List ControlCommand) (dur_u : ℚ)
    (hsc : cfg.scenario = Scenario.Volatile) (hctrl : ∀ i, ctrl i = []) (n : Nat) :
    (initState cfg dur_u).regime.current = Regime.Volatile ∧
    (runFrom cfg rand ctrl 0 n (initState cfg dur_u)).1.regime.current = Regime.Volatile := by
  have hinit : (initState cfg dur_u).regime.current = Regime.Volatile := by
    simp [initState, RegimeState.mkNew, hsc, ScenarioConfig.from_scenario]
  exact ⟨hinit, runFrom_volatile_regime cfg rand ctrl hsc hctrl n 0 _ hinit⟩

/-- Witness for claim C3: three quiet ticks of the volatile scenario at
the default configuration stay in the volatile regime. -/
theorem claim_C3_witness :
    (initState cfgVolatile 0).regime.current = Regime.Volatile ∧
    (runFrom cfgVolatile (fun _ => quietRand) (fun _ => []) 0 3
      (initState cfgVolatile 0)).1.regime.current = Regime.Volatile :=
  claim_C3 cfgVolatile (fun _ => quietRand) (fun _ => []) 0 rfl (fun _ => rfl) 3

/-! ## Claim C8: same-seed determinism and the HashMap iteration order -/

/-- Under the insertion-order key collection, the hash-order-aware
cancellation loop coincides with the insertion-order one: the selected
index lands on the same key. -/
theorem regimeCancelsH_canonical (picks : Nat → Nat) (t : ℚ) :
    ∀ (count k : Nat) (act : List (Nat × Order)),
      regimeCancelsH hashCanon.keysOrd picks t count k act =
        regimeCancels picks t count k act := by
  intro count
  induction count with
  | zero => intro k act; rfl
  | succ m ih =>
    intro k act
    by_cases h : act = []
    · simp [regimeCancelsH, regimeCancels, h]
    · have hlen : picks k % (keysOf act).length < (keysOf act).length :=
        Nat.mod_lt _ (by simpa [keysOf, List.length_pos] using h)
      have hpick : (hashCanon.keysOrd k act).getD
          (picks k % (hashCanon.keysOrd k act).length) 0 = pickKey picks k act h := by
        show (keysOf act).getD (picks k % (keysOf act).length) 0 = _
        rw [pickKey]
        exact List.getD_eq_getElem (keysOf act) 0 hlen
      simp only [regimeCancelsH, regimeCancels, if_neg h, dif_neg h, hpick, ih]

/-- Under the insertion iteration order, the hash-order-aware expiry
scan coincides with the insertion-order one. -/
theorem tickExpiredH_canonical (cfg : AppConfig) (r : TickRand) (s : EngState) :
    tickExpiredH cfg r hashCanon s = tickExpired cfg r s := rfl

/-- Under the insertion iteration order, the hash-order-aware
cancellation pass coincides with the insertion-order one. -/
theorem tickRCH_canonical (cfg : AppConfig) (r : TickRand) (s : EngState) :
    tickRCH cfg r hashCanon s = tickRC cfg r s := by
  have h2 : tickActive2H cfg r hashCanon s = tickActive2 cfg r s := rfl
  simp only [tickRCH, tickRC, h2, regimeCancelsH_canonical]

/-- Under the insertion iteration order, the hash-order-aware tick body
coincides with tickCore. -/
theorem tickCoreH_canonical (cfg : AppConfig) (r : TickRand) (s : EngState) :
    tickCoreH cfg r hashCanon s = tickCore cfg r s := by
  have hE : ∀ s' : EngState, tickExpiredH cfg r hashCanon s' = tickExpired cfg r s' :=
    fun _ => rfl
  simp only [tickCoreH, tickCore, hE, tickRCH_canonical]

/-- Under the insertion iteration order, the hash-order-aware loop
iteration coincides with engineStep. -/
theorem engineStepH_canonical (cfg : AppConfig) (r : TickRand)
    (cs : List ControlCommand) (s : EngState) :
    engineStepH cfg r cs hashCanon s = engineStep cfg r cs s := by
  simp only [engineStepH, engineStep, tickCoreH_canonical]

/-- The hash-order-aware run with the insertion-order stream is the
embedded loop itself: the oracle model refines runFrom. -/
theorem runFromH_canonical (cfg : AppConfig) (rand : Nat → TickRand)
    (ctrl : Nat → List ControlCommand) :
    ∀ (n i : Nat) (s : EngState),
      runFromH cfg rand ctrl (fun _ => hashCanon) i n s = runFrom cfg rand ctrl i n s := by
  intro n
  induction n with
  | zero => intro i s; rfl
  | succ m ih =>
    intro i s
    simp only [runFromH, runFrom, engineStepH_canonical, ih]

set_option maxRecDepth 8000 in
unseal Rat.add Rat.mul Rat.inv Rat.sub in
/-- Claim C8: the claimed same-seed determinism fails against the code.
The active-order index is a std HashMap whose per-process iteration
order is not derived from the engine seed, and that order reaches the
wire through the expiry scan and the cancellation key vectors.  Both
iteration-order oracles below are realizable (every read yields a
permutation of the stored entries or keys), yet under the identical
seeded draw stream, the identical configuration and no control
commands, the run whose key vector is collected as 0, 1 cancels id 0
while the run collecting it as 1, 0 cancels id 1, so the one-tick
wire-message streams already differ. -/
theorem claim_C8_divergence :
    (∀ a : List (Nat × Order), (hashCanon.iterOrd a).Perm a ∧ (hashRev.iterOrd a).Perm a) ∧
    (∀ (k : Nat) (a : List (Nat × Order)),
      (hashCanon.keysOrd k a).Perm (keysOf a) ∧ (hashRev.keysOrd k a).Perm (keysOf a)) ∧
    runMsgsH cfgNormal (fun _ => twoLimitCancelRand) (fun _ => []) (fun _ => hashCanon) 1 0 ≠
      runMsgsH cfgNormal (fun _ => twoLimitCancelRand) (fun _ => []) (fun _ => hashRev) 1 0 := by
  refine ⟨fun a => ⟨List.Perm.refl a, List.Perm.refl a⟩,
    fun k a => ⟨List.Perm.refl (keysOf a), (keysOf a).reverse_perm⟩, ?_⟩
  decide

/-! ## Claim C1: order ids on the wire -/

/-- The oracle shuffle emits a permutation of its input pool. -/
theorem shuffleGo_perm (picks : Nat → Nat) :
    ∀ (fuel k : Nat) (xs : List Order), xs.length ≤ fuel →
      (shuffleGo picks fuel k xs).Perm xs := by
  intro fuel
  induction fuel with
  | zero => intro k xs _; exact List.Perm.refl xs
  | succ m ih =>
    intro k xs h
    by_cases hx : xs = []
    · subst hx; simp [shuffleGo]
    · simp only [shuffleGo, dif_neg hx]
      have hmem : xs.get ⟨picks k % xs.length, Nat.mod_lt _ (List.length_pos.mpr hx)⟩ ∈ xs :=
        xs.get_mem _ _
      have hlen : (xs.erase (xs.get ⟨picks k % xs.length,
          Nat.mod_lt _ (List.length_pos.mpr hx)⟩)).length ≤ m := by
        rw [List.length_erase_of_mem hmem]
        have : 0 < xs.length := List.length_pos.mpr hx
        omega
      exact ((ih (k + 1) _ hlen).cons _).trans (List.perm_cons_erase hmem).symm

/-- The shuffled batch is a permutation of the generated batch. -/
theorem shuffleSel_perm (picks : Nat → Nat) (k : Nat) (xs : List Order) :
    (shuffleSel picks k xs).Perm xs :=
  shuffleGo_perm picks xs.length k xs le_rfl

/-- The id of one generated limit order is the id it was assigned. -/
theorem genLimit_id (p : RegimeParams) (cfg : AppConfig) (mid t : ℚ) (i : Nat)
    (d : LimitRand) : (genLimit p cfg mid t i d).id = i := rfl

/-- The id of one generated market order is the id it was assigned. -/
theorem genMarket_id (p : RegimeParams) (t : ℚ) (i : Nat) (d : MarketRand) :
    (genMarket p t i d).id = i := rfl

/-- The ids of a generated limit batch are consecutive from the starting
id, in generation order. -/
theorem genLimits_map_id (p : RegimeParams) (cfg : AppConfig) (mid t : ℚ) :
    ∀ (ds : List LimitRand) (i : Nat),
      (genLimits p cfg mid t i ds).map Order.id = List.range' i ds.length := by
  intro ds
  induction ds with
  | nil => intro i; rfl
  | cons d ds ih =>
    intro i
    simp only [genLimits, List.map_cons, List.length_cons, List.range'_succ, ih, genLimit_id]

/-- The ids of a generated market batch are consecutive from the
starting id. -/
theorem genMarkets_map_id (p : RegimeParams) (t : ℚ) :
    ∀ (ds : List MarketRand) (i : Nat),
      (genMarkets p t i ds).map Order.id = List.range' i ds.length := by
  intro ds
  induction ds with
  | nil => intro i; rfl
  | cons d ds ih =>
    intro i
    simp only [genMarkets, List.map_cons, List.length_cons, List.range'_succ, ih, genMarket_id]

/-- orderIds distributes over append. -/
theorem orderIds_append (a b : List WireMsg) :
    orderIds (a ++ b) = orderIds a ++ orderIds b := by
  simp [orderIds]

/-- orderIds of a batch of order messages is the batch's id list. -/
theorem orderIds_map_order (os : List Order) :
    orderIds (os.map WireMsg.order) = os.map Order.id := by
  induction os with
  | nil => rfl
  | cons o os ih => simp [orderIds] at ih ⊢; exact ih

/-- orderIds of cancel messages is empty. -/
theorem orderIds_map_cancel (ids : List Nat) (t : ℚ) :
    orderIds (ids.map (fun i => WireMsg.cancel i t)) = [] := by
  induction ids with
  | nil => rfl
  | cons i ids ih =>
    simp only [List.map_cons, orderIds, List.filterMap_cons]
    exact ih

/-- The regime-cancellation pass emits no order messages. -/
theorem regimeCancels_orderIds (picks : Nat → Nat) (t : ℚ) :
    ∀ (count k : Nat) (a : List (Nat × Order)),
      orderIds (regimeCancels picks t count k a).2 = [] := by
  intro count
  induction count with
  | zero => intro k a; rfl
  | succ m ih =>
    intro k a
    by_cases ha : a = []
    · subst ha
      simp [regimeCancels, orderIds]
    · simp only [regimeCancels, dif_neg ha]
      simp [orderIds] at ih ⊢
      exact ih _ _

/-- The forced-event block does not touch the id counter, the index,
the clock or the tunables. -/
theorem forcedEventPhase_fields (cfg : AppConfig) (r : TickRand) (s : EngState) :
    (forcedEventPhase cfg r s).next_id = s.next_id ∧
    (forcedEventPhase cfg r s).active = s.active ∧
    (forcedEventPhase cfg r s).current_time = s.current_time ∧
    (forcedEventPhase cfg r s).runtime = s.runtime := by
  simp only [forcedEventPhase]
  split_ifs <;> exact ⟨rfl, rfl, rfl, rfl⟩

/-- The shock block does not touch the id counter, the index, the clock
or the tunables. -/
theorem shockPhase_fields (cfg : AppConfig) (r : TickRand) (s : EngState) :
    (shockPhase cfg r s).next_id = s.next_id ∧
    (shockPhase cfg r s).active = s.active ∧
    (shockPhase cfg r s).current_time = s.current_time ∧
    (shockPhase cfg r s).runtime = s.runtime := by
  simp only [shockPhase]
  split_ifs <;> exact ⟨rfl, rfl, rfl, rfl⟩

/-- The price phases do not touch the id counter, the index, the clock
or the tunables. -/
theorem pricePhases_fields (cfg : AppConfig) (r : TickRand) (s : EngState) :
    (pricePhases cfg r s).next_id = s.next_id ∧
    (pricePhases cfg r s).active = s.active ∧
    (pricePhases cfg r s).current_time = s.current_time ∧
    (pricePhases cfg r s).runtime = s.runtime := by
  have hf := forcedEventPhase_fields cfg r s
  have hs := shockPhase_fields cfg r (forcedEventPhase cfg r s)
  exact ⟨hs.1.trans hf.1, hs.2.1.trans hf.2.1, hs.2.2.1.trans hf.2.2.1,
    hs.2.2.2.trans hf.2.2.2⟩

/-- The order ids a tick emits are exactly the block of fresh ids it
consumed, in some order. -/
theorem tickCore_orderIds (cfg : AppConfig) (r : TickRand) (s : EngState) :
    (orderIds (tickCore cfg r s).2.1).Perm
      (List.range' s.next_id ((tickCore cfg r s).1.next_id - s.next_id)) := by
  have hnid : (pricePhases cfg r s).next_id = s.next_id := (pricePhases_fields cfg r s).1
  have hfin : (tickCore cfg r s).1.next_id =
      s.next_id + ((tickLDraws cfg r (pricePhases cfg r s)).length +
        (tickMDraws cfg r (pricePhases cfg r s)).length) := by
    show (pricePhases cfg r s).next_id + (tickLDraws cfg r (pricePhases cfg r s)).length +
        (tickMDraws cfg r (pricePhases cfg r s)).length = _
    rw [hnid]
    omega
  have hmsgs : (tickCore cfg r s).2.1 =
      (tickShuffled cfg r (pricePhases cfg r s)).map WireMsg.order ++
        ((tickExpired cfg r (pricePhases cfg r s)).map
          (fun i => WireMsg.cancel i (pricePhases cfg r s).current_time) ++
         (tickRC cfg r (pricePhases cfg r s)).2) := by
    show (tickShuffled cfg r (pricePhases cfg r s)).map WireMsg.order ++
        (tickExpired cfg r (pricePhases cfg r s)).map
          (fun i => WireMsg.cancel i (pricePhases cfg r s).current_time) ++
        (tickRC cfg r (pricePhases cfg r s)).2 = _
    rw [List.append_assoc]
  rw [hmsgs, hfin, orderIds_append, orderIds_append, orderIds_map_cancel]
  have hrc : orderIds (tickRC cfg r (pricePhases cfg r s)).2 = [] := by
    unfold tickRC
    split_ifs
    · exact regimeCancels_orderIds _ _ _ _ _
    · rfl
  rw [hrc]
  simp only [List.nil_append, List.append_nil, Nat.add_sub_cancel_left]
  have hperm := (shuffleSel_perm r.shufflePicks 0
    (tickLimits cfg r (pricePhases cfg r s) ++ tickMarkets cfg r (pricePhases cfg r s))).map
    Order.id
  rw [orderIds_map_order]
  refine hperm.trans ?_
  simp only [tickLimits, tickMarkets]
  rw [List.map_append, genLimits_map_id, genMarkets_map_id, hnid]
  rw [List.range'_append_1, Nat.add_comm ((tickMDraws cfg r (pricePhases cfg r s)).length)]

/-- Control commands never touch the id counter, the index or the
clock. -/
theorem applyCmd_fields (s : EngState) (c : ControlCommand) :
    (applyCmd s c).next_id = s.next_id ∧ (applyCmd s c).active = s.active ∧
    (applyCmd s c).current_time = s.current_time := by
  cases c
  case throughput v => simp only [applyCmd]; split_ifs <;> exact ⟨rfl, rfl, rfl⟩
  case displayInterval v => simp only [applyCmd]; split_ifs <;> exact ⟨rfl, rfl, rfl⟩
  all_goals exact ⟨rfl, rfl, rfl⟩

/-- The command drain never touches the id counter, the index or the
clock. -/
theorem drainCommands_fields (s : EngState) (cs : List ControlCommand) :
    (drainCommands s cs).next_id = s.next_id ∧ (drainCommands s cs).active = s.active ∧
    (drainCommands s cs).current_time = s.current_time := by
  induction cs generalizing s with
  | nil => exact ⟨rfl, rfl, rfl⟩
  | cons c cs ih =>
    have h1 := applyCmd_fields s c
    have h2 := ih (applyCmd s c)
    exact ⟨h2.1.trans h1.1, h2.2.1.trans h1.2.1, h2.2.2.trans h1.2.2⟩

/-- The order ids one loop iteration emits are exactly the ids it
consumed. -/
theorem engineStep_orderIds (cfg : AppConfig) (r : TickRand) (cs : List ControlCommand)
    (s : EngState) :
    (orderIds (engineStep cfg r cs s).2.1).Perm
      (List.range' s.next_id ((engineStep cfg r cs s).1.next_id - s.next_id)) := by
  have hf := drainCommands_fields s cs
  simp only [engineStep]
  split_ifs
  · simp [orderIds, hf.1]
  · have h := tickCore_orderIds cfg r (drainCommands s cs)
    rw [hf.1] at h
    exact h

/-- The id counter never decreases across one loop iteration. -/
theorem engineStep_next_id_le (cfg : AppConfig) (r : TickRand) (cs : List ControlCommand)
    (s : EngState) : s.next_id ≤ (engineStep cfg r cs s).1.next_id := by
  have hf := drainCommands_fields s cs
  simp only [engineStep]
  split_ifs
  · exact le_of_eq hf.1.symm
  · have h : (tickCore cfg r (drainCommands s cs)).1.next_id =
        (pricePhases cfg r (drainCommands s cs)).next_id +
          (tickLDraws cfg r (pricePhases cfg r (drainCommands s cs))).length +
          (tickMDraws cfg r (pricePhases cfg r (drainCommands s cs))).length := rfl
    rw [h, (pricePhases_fields cfg r (drainCommands s cs)).1, hf.1]
    omega

/-- Over any run segment the emitted order ids are exactly the block of
ids consumed, as a permutation, and the counter never decreases. -/
theorem runFrom_orderIds (cfg : AppConfig) (rand : Nat → TickRand)
    (ctrl : Nat → List ControlCommand) :
    ∀ (n i : Nat) (s : EngState),
      (orderIds (runFrom cfg rand ctrl i n s).2).Perm
        (List.range' s.next_id ((runFrom cfg rand ctrl i n s).1.next_id - s.next_id)) ∧
      s.next_id ≤ (runFrom cfg rand ctrl i n s).1.next_id := by
  intro n
  induction n with
  | zero => intro i s; exact ⟨by simp [runFrom, orderIds], le_rfl⟩
  | succ m ih =>
    intro i s
    simp only [runFrom]
    obtain ⟨hp, hle⟩ := ih (i + 1) (engineStep cfg (rand i) (ctrl i) s).1
    have h1 := engineStep_orderIds cfg (rand i) (ctrl i) s
    have hle1 := engineStep_next_id_le cfg (rand i) (ctrl i) s
    constructor
    · rw [orderIds_append]
      refine (h1.append hp).trans ?_
      obtain ⟨k, hk⟩ : ∃ k, (engineStep cfg (rand i) (ctrl i) s).1.next_id = s.next_id + k :=
        ⟨(engineStep cfg (rand i) (ctrl i) s).1.next_id - s.next_id,
          (Nat.add_sub_cancel' hle1).symm⟩
      obtain ⟨l, hl⟩ : ∃ l, (runFrom cfg rand ctrl (i + 1) m
          (engineStep cfg (rand i) (ctrl i) s).1).1.next_id = s.next_id + k + l := by
        refine ⟨(runFrom cfg rand ctrl (i + 1) m
          (engineStep cfg (rand i) (ctrl i) s).1).1.next_id - (s.next_id + k), ?_⟩
        rw [← hk]
        exact (Nat.add_sub_cancel' hle).symm
      rw [hk, hl]
      rw [show s.next_id + k + l - s.next_id = k + l from by omega,
          show s.next_id + k - s.next_id = k from by omega,
          show s.next_id + k + l - (s.next_id + k) = l from by omega]
      rw [List.range'_append_1, Nat.add_comm l k]
    · omega

/-- Claim C1, corrected: over any run the multiset of order ids carried
by ORDER messages is exactly 0 .. N-1 where N is the final value of the
id counter — ids are assigned consecutively from 0 with no gaps and
never reused — but the stream itself is not sorted: step 9 shuffles each
tick batch before sending, so the n-th order message sent need not carry
id n-1. -/
theorem claim_C1_amended (cfg : AppConfig) (rand : Nat → TickRand)
    (ctrl : Nat → List ControlCommand) (dur_u : ℚ) (n : Nat) :
    (orderIds (runMsgs cfg rand ctrl n dur_u)).Perm
      (List.range ((runFrom cfg rand ctrl 0 n (initState cfg dur_u)).1.next_id)) := by
  have h := (runFrom_orderIds cfg rand ctrl n 0 (initState cfg dur_u)).1
  have hz : (initState cfg dur_u).next_id = 0 := rfl
  rw [hz] at h
  rw [runMsgs]
  simpa [List.range_eq_range'] using h

set_option maxRecDepth 8000 in
unseal Rat.add Rat.mul Rat.inv Rat.sub in
/-- Claim C1 counterexample: one tick at the default configuration
generates two limit orders (ids 0 and 1) and the shuffle emits them in
the order 1, 0, so the first order message sent does not carry id 0 and
the id stream is not the increasing sequence the claim states. -/
theorem claim_C1_counterexample :
    orderIds (runMsgs cfgNormal (fun _ => swapRand) (fun _ => []) 1 0) = [1, 0] ∧
    orderIds (runMsgs cfgNormal (fun _ => swapRand) (fun _ => []) 1 0) ≠
      List.range (orderIds (runMsgs cfgNormal (fun _ => swapRand) (fun _ => []) 1 0)).length := by
  exact ⟨by decide, by decide⟩

/-! ## Claim C4: the active-order-count equation -/

/-- Keys distribute over append. -/
theorem keysOf_append (a b : List (Nat × Order)) :
    keysOf (a ++ b) = keysOf a ++ keysOf b := by
  simp [keysOf]

/-- Inserting a fresh key appends the binding. -/
theorem assocInsert_fresh (a : List (Nat × Order)) (k : Nat) (v : Order)
    (h : k ∉ keysOf a) : assocInsert a k v = a ++ [(k, v)] := by
  rw [assocInsert, if_neg]
  simp only [keysOf, List.mem_map, not_exists, not_and] at h
  simp only [List.any_eq_true, beq_iff_eq, not_exists, not_and]
  intro q hq
  exact fun hk => h q hq hk

/-- The send loop appends exactly the limit orders of the batch to the
index, in batch order, when the batch ids are fresh and distinct. -/
theorem insertOrders_keys (os : List Order) : ∀ (a : List (Nat × Order)),
    (∀ o ∈ os, o.id ∉ keysOf a) → (os.map Order.id).Nodup →
    keysOf (insertOrders a os) =
      keysOf a ++ (os.filter (fun o => decide (o.order_type = OrderType.Limit))).map Order.id := by
  induction os with
  | nil => intro a _ _; simp [insertOrders]
  | cons o os ih =>
    intro a hfresh hnd
    have hfresh0 : o.id ∉ keysOf a := hfresh o (List.mem_cons_self o os)
    simp only [List.map_cons, List.nodup_cons] at hnd
    by_cases hlim : o.order_type = OrderType.Limit
    · have hstep : insertOrders a (o :: os) = insertOrders (a ++ [(o.id, o)]) os := by
        simp only [insertOrders, List.foldl_cons, if_pos hlim, assocInsert_fresh a o.id o hfresh0]
      rw [hstep, ih (a ++ [(o.id, o)]) ?fresh hnd.2]
      · rw [keysOf_append, List.filter_cons_of_pos (by simp [hlim]), List.map_cons]
        simp [keysOf]
      case fresh =>
        intro o' ho'
        rw [keysOf_append]
        simp only [List.mem_append, keysOf, List.map_cons, List.map_nil, List.mem_singleton]
        rintro (hmem | hmem)
        · exact hfresh o' (List.mem_cons_of_mem o ho') hmem
        · exact hnd.1 (hmem ▸ List.mem_map_of_mem Order.id ho')
    · have hstep : insertOrders a (o :: os) = insertOrders a os := by
        simp only [insertOrders, List.foldl_cons, if_neg hlim]
      rw [hstep, ih a (fun o' ho' => hfresh o' (List.mem_cons_of_mem o ho')) hnd.2,
        List.filter_cons_of_neg (by simp [hlim])]

/-- Removing a key filters it out of the key list. -/
theorem assocRemove_keys (a : List (Nat × Order)) (i : Nat) :
    keysOf (assocRemove a i) = (keysOf a).filter (fun j => j != i) := by
  induction a with
  | nil => rfl
  | cons q a ih =>
    by_cases hq : q.1 = i
    · simp [assocRemove, keysOf, List.filter_cons, hq] at ih ⊢
      exact ih
    · simp [assocRemove, keysOf, List.filter_cons, hq] at ih ⊢
      exact ih

/-- Membership in the keys after one removal. -/
theorem mem_keysOf_assocRemove (a : List (Nat × Order)) (i j : Nat) :
    j ∈ keysOf (assocRemove a i) ↔ j ∈ keysOf a ∧ j ≠ i := by
  rw [assocRemove_keys]
  simp [List.mem_filter]

/-- Removing an absent key changes nothing. -/
theorem assocRemove_of_not_mem (a : List (Nat × Order)) (i : Nat)
    (h : i ∉ keysOf a) : assocRemove a i = a := by
  rw [assocRemove, List.filter_eq_self]
  intro q hq
  simp only [bne_iff_ne, ne_eq]
  exact fun hk => h (hk ▸ List.mem_map_of_mem Prod.fst hq)

/-- Removing a present key from an index with distinct keys drops
exactly one binding. -/
theorem length_assocRemove (a : List (Nat × Order)) (i : Nat)
    (hnd : (keysOf a).Nodup) (hmem : i ∈ keysOf a) :
    (assocRemove a i).length + 1 = a.length := by
  induction a with
  | nil => cases hmem
  | cons q a ih =>
    simp only [keysOf, List.map_cons, List.nodup_cons] at hnd
    by_cases hq : q.1 = i
    · have hnotin : i ∉ keysOf a := hq ▸ hnd.1
      have : assocRemove (q :: a) i = assocRemove a i := by
        simp [assocRemove, List.filter_cons, hq]
      rw [this, assocRemove_of_not_mem a i hnotin]
      simp
    · have hmem' : i ∈ keysOf a := by
        have hck : keysOf (q :: a) = q.1 :: keysOf a := rfl
        rw [hck] at hmem
        rcases List.mem_cons.mp hmem with h | h
        · exact absurd h.symm hq
        · exact h
      have : assocRemove (q :: a) i = q :: assocRemove a i := by
        simp [assocRemove, List.filter_cons, hq]
      rw [this, List.length_cons, ih hnd.2 hmem']
      rfl

/-- Key distinctness survives one removal. -/
theorem nodup_assocRemove (a : List (Nat × Order)) (i : Nat)
    (hnd : (keysOf a).Nodup) : (keysOf (assocRemove a i)).Nodup := by
  rw [assocRemove_keys]
  exact hnd.filter _

/-- Batch removal of distinct present ids: the index shrinks by the
batch size, keys stay distinct, and exactly the removed ids leave. -/
theorem removeAllIds_spec (ids : List Nat) : ∀ (a : List (Nat × Order)),
    (keysOf a).Nodup → ids.Nodup → (∀ i ∈ ids, i ∈ keysOf a) →
    (removeAllIds a ids).length + ids.length = a.length ∧
    (keysOf (removeAllIds a ids)).Nodup ∧
    (∀ j, j ∈ keysOf (removeAllIds a ids) ↔ j ∈ keysOf a ∧ j ∉ ids) := by
  induction ids with
  | nil => intro a hnd _ _; exact ⟨by simp [removeAllIds], hnd, by simp [removeAllIds]⟩
  | cons i ids ih =>
    intro a hnd hidnd hmem
    simp only [List.nodup_cons] at hidnd
    have hstep : removeAllIds a (i :: ids) = removeAllIds (assocRemove a i) ids := rfl
    have hnd' : (keysOf (assocRemove a i)).Nodup := nodup_assocRemove a i hnd
    have hmem' : ∀ j ∈ ids, j ∈ keysOf (assocRemove a i) := by
      intro j hj
      rw [mem_keysOf_assocRemove]
      exact ⟨hmem j (List.mem_cons_of_mem i hj), fun hji => hidnd.1 (hji ▸ hj)⟩
    obtain ⟨hlen, hnd2, hm2⟩ := ih (assocRemove a i) hnd' hidnd.2 hmem'
    refine ⟨?_, by rw [hstep]; exact hnd2, ?_⟩
    · rw [hstep] at *
      have := length_assocRemove a i hnd (hmem i (List.mem_cons_self i ids))
      simp only [List.length_cons]
      omega
    · intro j
      rw [hstep, hm2 j, mem_keysOf_assocRemove]
      simp only [List.mem_cons, not_or]
      tauto

/-- The chosen key is one of the index's keys. -/
theorem pickKey_mem (picks : Nat → Nat) (k : Nat) (act : List (Nat × Order))
    (h : ¬act = []) : pickKey picks k act h ∈ keysOf act :=
  List.get_mem _ _ _

/-- Full characterization of the cancellation loop on an index with
distinct keys: it emits cancels for min(count, size) distinct keys of
the index, removes exactly those, and the index shrinks accordingly. -/
theorem regimeCancels_spec (picks : Nat → Nat) (t : ℚ) :
    ∀ (count k : Nat) (a : List (Nat × Order)), (keysOf a).Nodup →
      ∃ ids : List Nat,
        (regimeCancels picks t count k a).2 = ids.map (fun i => WireMsg.cancel i t) ∧
        ids.Nodup ∧
        (∀ i ∈ ids, i ∈ keysOf a) ∧
        ids.length = min count a.length ∧
        (regimeCancels picks t count k a).1.length + ids.length = a.length ∧
        (keysOf (regimeCancels picks t count k a).1).Nodup ∧
        (∀ j, j ∈ keysOf (regimeCancels picks t count k a).1 ↔ j ∈ keysOf a ∧ j ∉ ids) := by
  intro count
  induction count with
  | zero =>
    intro k a hnd
    exact ⟨[], rfl, List.nodup_nil, by simp, by simp, by simp [regimeCancels], hnd,
      by simp [regimeCancels]⟩
  | succ m ih =>
    intro k a hnd
    by_cases ha : a = []
    · subst ha
      exact ⟨[], by simp [regimeCancels], List.nodup_nil, by simp, by simp,
        by simp [regimeCancels], by simpa [regimeCancels] using hnd, by simp [regimeCancels]⟩
    · have h1 : (regimeCancels picks t (m + 1) k a).1 =
          (regimeCancels picks t m (k + 1) (assocRemove a (pickKey picks k a ha))).1 := by
        simp only [regimeCancels, dif_neg ha]
      have h2 : (regimeCancels picks t (m + 1) k a).2 =
          WireMsg.cancel (pickKey picks k a ha) t ::
            (regimeCancels picks t m (k + 1) (assocRemove a (pickKey picks k a ha))).2 := by
        simp only [regimeCancels, dif_neg ha]
      have hpm : pickKey picks k a ha ∈ keysOf a := pickKey_mem picks k a ha
      have hnd' := nodup_assocRemove a (pickKey picks k a ha) hnd
      have hlen' := length_assocRemove a (pickKey picks k a ha) hnd hpm
      obtain ⟨ids, hmsgs, hidnd, hidmem, hidlen, hreslen, hresnd, hresmem⟩ :=
        ih (k + 1) (assocRemove a (pickKey picks k a ha)) hnd'
      have hpos : 0 < a.length := List.length_pos.mpr ha
      refine ⟨pickKey picks k a ha :: ids, ?_, ?_, ?_, ?_, ?_, ?_, ?_⟩
      · rw [h2, hmsgs, List.map_cons]
      · rw [List.nodup_cons]
        refine ⟨fun hc => ?_, hidnd⟩
        exact ((mem_keysOf_assocRemove a _ _).mp (hidmem _ hc)).2 rfl
      · intro i hi
        rcases List.mem_cons.mp hi with h | h
        · exact h ▸ hpm
        · exact ((mem_keysOf_assocRemove a _ _).mp (hidmem i h)).1
      · simp only [List.length_cons, hidlen]
        omega
      · rw [h1, List.length_cons]
        omega
      · rw [h1]; exact hresnd
      · intro j
        rw [h1, hresmem j, mem_keysOf_assocRemove]
        simp only [List.mem_cons, not_or]
        tauto

/-- The ids of the shuffled tick batch are a permutation of the fresh id
block consumed this tick. -/
theorem tickShuffled_ids_perm (cfg : AppConfig) (r : TickRand) (s : EngState) :
    ((tickShuffled cfg r s).map Order.id).Perm
      (List.range' s.next_id
        ((tickLDraws cfg r s).length + (tickMDraws cfg r s).length)) := by
  refine ((shuffleSel_perm _ _ _).map Order.id).trans ?_
  simp only [tickLimits, tickMarkets]
  rw [List.map_append, genLimits_map_id, genMarkets_map_id]
  rw [List.range'_append_1, Nat.add_comm ((tickMDraws cfg r s).length)]

/-- The ids of the shuffled batch are distinct. -/
theorem tickShuffled_ids_nodup (cfg : AppConfig) (r : TickRand) (s : EngState) :
    ((tickShuffled cfg r s).map Order.id).Nodup :=
  (tickShuffled_ids_perm cfg r s).nodup_iff.mpr (List.nodup_range' _ _)

/-- Every order of the shuffled batch carries a fresh id. -/
theorem tickShuffled_ids_ge (cfg : AppConfig) (r : TickRand) (s : EngState) :
    ∀ o ∈ tickShuffled cfg r s, s.next_id ≤ o.id := by
  intro o ho
  have h1 : o.id ∈ (tickShuffled cfg r s).map Order.id := List.mem_map_of_mem Order.id ho
  have h2 := (tickShuffled_ids_perm cfg r s).subset h1
  exact (List.mem_range'_1.mp h2).1

/-- Every generated limit order has limit type. -/
theorem genLimits_mem_type (p : RegimeParams) (cfg : AppConfig) (mid t : ℚ) :
    ∀ (ds : List LimitRand) (i : Nat) (o : Order), o ∈ genLimits p cfg mid t i ds →
      o.order_type = OrderType.Limit := by
  intro ds
  induction ds with
  | nil => intro i o h; cases h
  | cons d ds ih =>
    intro i o h
    rcases List.mem_cons.mp h with h | h
    · subst h; rfl
    · exact ih (i + 1) o h

/-- Every generated market order has market type. -/
theorem genMarkets_mem_type (p : RegimeParams) (t : ℚ) :
    ∀ (ds : List MarketRand) (i : Nat) (o : Order), o ∈ genMarkets p t i ds →
      o.order_type = OrderType.Market := by
  intro ds
  induction ds with
  | nil => intro i o h; cases h
  | cons d ds ih =>
    intro i o h
    rcases List.mem_cons.mp h with h | h
    · subst h; rfl
    · exact ih (i + 1) o h

/-- The shuffled batch holds exactly as many limit orders as the limit
draw produced. -/
theorem tickShuffled_limit_count (cfg : AppConfig) (r : TickRand) (s : EngState) :
    ((tickShuffled cfg r s).filter
      (fun o => decide (o.order_type = OrderType.Limit))).length =
      (tickLDraws cfg r s).length := by
  have hperm := (shuffleSel_perm r.shufflePicks 0
    (tickLimits cfg r s ++ tickMarkets cfg r s)).filter
    (fun o => decide (o.order_type = OrderType.Limit))
  show (List.filter (fun o => decide (o.order_type = OrderType.Limit))
    (shuffleSel r.shufflePicks 0 (tickLimits cfg r s ++ tickMarkets cfg r s))).length =
    (tickLDraws cfg r s).length
  rw [hperm.length_eq, List.filter_append]
  rw [List.filter_eq_self.mpr (fun o ho => by
    simp [genLimits_mem_type _ _ _ _ _ _ _ ho])]
  rw [show List.filter (fun o => decide (o.order_type = OrderType.Limit))
      (tickMarkets cfg r s) = [] from List.filter_eq_nil_iff.mpr (fun o ho => by
    simp [genMarkets_mem_type _ _ _ _ _ ho])]
  have hlen : (tickLimits cfg r s).length = (tickLDraws cfg r s).length := by
    have h := congrArg List.length (genLimits_map_id (tickParams s) cfg s.mid s.current_time
      (tickLDraws cfg r s) s.next_id)
    simpa using h
  simp [hlen]

/-- Keys of the index after the send loop: the old keys followed by the
limit ids of the batch. -/
theorem tickActive1_keys (cfg : AppConfig) (r : TickRand) (s : EngState)
    (hinv : ActiveInv s) :
    keysOf (tickActive1 cfg r s) =
      keysOf s.active ++ ((tickShuffled cfg r s).filter
        (fun o => decide (o.order_type = OrderType.Limit))).map Order.id := by
  apply insertOrders_keys
  · intro o ho hmem
    have h1 := tickShuffled_ids_ge cfg r s o ho
    have h2 := hinv.2 _ hmem
    omega
  · exact tickShuffled_ids_nodup cfg r s

/-- Size of the index after the send loop. -/
theorem tickActive1_length (cfg : AppConfig) (r : TickRand) (s : EngState)
    (hinv : ActiveInv s) :
    (tickActive1 cfg r s).length = s.active.length + (tickLDraws cfg r s).length := by
  have h := congrArg List.length (tickActive1_keys cfg r s hinv)
  simp only [keysOf, List.length_map, List.length_append] at h
  rw [h, tickShuffled_limit_count]

/-- Keys of the index after the send loop stay distinct and bounded by
the new id counter. -/
theorem tickActive1_inv (cfg : AppConfig) (r : TickRand) (s : EngState)
    (hinv : ActiveInv s) :
    (keysOf (tickActive1 cfg r s)).Nodup ∧
    (∀ k ∈ keysOf (tickActive1 cfg r s),
      k < s.next_id + (tickLDraws cfg r s).length + (tickMDraws cfg r s).length) := by
  have hkeys := tickActive1_keys cfg r s hinv
  have hsub : List.Sublist (((tickShuffled cfg r s).filter
      (fun o => decide (o.order_type = OrderType.Limit))).map Order.id)
      ((tickShuffled cfg r s).map Order.id) :=
    (List.filter_sublist _).map Order.id
  constructor
  · rw [hkeys, List.nodup_append]
    refine ⟨hinv.1, (tickShuffled_ids_nodup cfg r s).sublist hsub, ?_⟩
    intro k hk hk2
    have h1 := hinv.2 k hk
    have h2 := (tickShuffled_ids_perm cfg r s).subset (hsub.subset hk2)
    have h3 := (List.mem_range'_1.mp h2).1
    omega
  · intro k hk
    rw [hkeys, List.mem_append] at hk
    rcases hk with hk | hk
    · have := hinv.2 k hk
      omega
    · have h2 := (tickShuffled_ids_perm cfg r s).subset (hsub.subset hk)
      have h3 := (List.mem_range'_1.mp h2).2
      omega

/-- The expiry scan collects distinct keys of the index. -/
theorem tickExpired_spec (cfg : AppConfig) (r : TickRand) (s : EngState)
    (hnd : (keysOf (tickActive1 cfg r s)).Nodup) :
    (tickExpired cfg r s).Nodup ∧
    (∀ i ∈ tickExpired cfg r s, i ∈ keysOf (tickActive1 cfg r s)) := by
  have hsub : List.Sublist (tickExpired cfg r s) (keysOf (tickActive1 cfg r s)) :=
    (List.filter_sublist _).map Prod.fst
  exact ⟨hnd.sublist hsub, fun i hi => hsub.subset hi⟩

/-- Size, distinctness and membership of the index after TTL expiry. -/
theorem tickActive2_spec (cfg : AppConfig) (r : TickRand) (s : EngState)
    (hinv : ActiveInv s) :
    (tickActive2 cfg r s).length + (tickExpired cfg r s).length =
      (tickActive1 cfg r s).length ∧
    (keysOf (tickActive2 cfg r s)).Nodup ∧
    (∀ j, j ∈ keysOf (tickActive2 cfg r s) ↔
      j ∈ keysOf (tickActive1 cfg r s) ∧ j ∉ tickExpired cfg r s) := by
  have hnd := (tickActive1_inv cfg r s hinv).1
  obtain ⟨hend, hemem⟩ := tickExpired_spec cfg r s hnd
  exact removeAllIds_spec (tickExpired cfg r s) (tickActive1 cfg r s) hnd hend hemem

/-- The cancellation pass shrinks the index by exactly the number of
cancel messages it emits. -/
theorem tickRC_length (cfg : AppConfig) (r : TickRand) (s : EngState)
    (hnd : (keysOf (tickActive2 cfg r s)).Nodup) :
    (tickRC cfg r s).1.length + (tickRC cfg r s).2.length =
      (tickActive2 cfg r s).length := by
  unfold tickRC
  split_ifs with h
  · obtain ⟨ids, hm, _, _, _, hlen, _, _⟩ :=
      regimeCancels_spec r.cancelPicks s.current_time
        (min (tickNumCancels cfg r s) (tickActive2 cfg r s).length) 0
        (tickActive2 cfg r s) hnd
    rw [hm, List.length_map]
    exact hlen
  · simp

/-- Claim C4: on every tick from a state whose index has distinct keys
below the id counter (as every reachable state does), the index size
after the tick equals its size before plus the limit orders generated
minus the TTL expiries minus the regime-driven cancellations of the
tick, with the counts exactly as the tick statistics record them. -/
theorem claim_C4 (cfg : AppConfig) (r : TickRand) (s : EngState) (hinv : ActiveInv s) :
    ((tickCore cfg r s).1.active.length : ℤ) =
      (s.active.length : ℤ) + (tickCore cfg r s).2.2.limits_generated -
        (tickCore cfg r s).2.2.cancels_expired -
        (tickCore cfg r s).2.2.cancels_regime := by
  have hf := pricePhases_fields cfg r s
  have hinv3 : ActiveInv (pricePhases cfg r s) := by
    refine ⟨?_, ?_⟩
    · rw [show keysOf (pricePhases cfg r s).active = keysOf s.active from by rw [hf.2.1]]
      exact hinv.1
    · intro k hk
      rw [show keysOf (pricePhases cfg r s).active = keysOf s.active from by rw [hf.2.1]] at hk
      rw [hf.1]
      exact hinv.2 k hk
  have e1 := tickActive1_length cfg r (pricePhases cfg r s) hinv3
  obtain ⟨e2, hnd2, _⟩ := tickActive2_spec cfg r (pricePhases cfg r s) hinv3
  have e3 := tickRC_length cfg r (pricePhases cfg r s) hnd2
  have hact : (tickCore cfg r s).1.active = (tickRC cfg r (pricePhases cfg r s)).1 := rfl
  have hst1 : (tickCore cfg r s).2.2.limits_generated =
      (tickLDraws cfg r (pricePhases cfg r s)).length := rfl
  have hst2 : (tickCore cfg r s).2.2.cancels_expired =
      (tickExpired cfg r (pricePhases cfg r s)).length := rfl
  have hst3 : (tickCore cfg r s).2.2.cancels_regime =
      (tickRC cfg r (pricePhases cfg r s)).2.length := rfl
  rw [hact, hst1, hst2, hst3]
  rw [hf.2.1] at e1
  omega

/-- Witness for claim C4: one tick from the empty initial index with one
limit draw lands at one active order. -/
theorem claim_C4_witness :
    ((tickCore cfgNormal oneLimitRand (initState cfgNormal 0)).1.active.length : ℤ) =
      ((initState cfgNormal 0).active.length : ℤ) +
        (tickCore cfgNormal oneLimitRand (initState cfgNormal 0)).2.2.limits_generated -
        (tickCore cfgNormal oneLimitRand (initState cfgNormal 0)).2.2.cancels_expired -
        (tickCore cfgNormal oneLimitRand (initState cfgNormal 0)).2.2.cancels_regime :=
  claim_C4 cfgNormal oneLimitRand (initState cfgNormal 0)
    ⟨by simp [initState, keysOf], by simp [initState, keysOf]⟩

/-! ## Claim C5: the cancel discipline of the wire stream -/

/-- Scanning a batch of order messages always succeeds, extends the
limit accumulator by exactly the batch's limit ids and leaves the
cancelled accumulator alone. -/
theorem traceScan_orders (os : List Order) : ∀ (L C : List Nat),
    ∃ L', traceScan L C (os.map WireMsg.order) = some (L', C) ∧
      (∀ k, k ∈ L' ↔ k ∈ L ∨ k ∈ (os.filter
        (fun o => decide (o.order_type = OrderType.Limit))).map Order.id) := by
  induction os with
  | nil => intro L C; exact ⟨L, rfl, by simp⟩
  | cons o os ih =>
    intro L C
    by_cases hlim : o.order_type = OrderType.Limit
    · obtain ⟨L', hscan, hmem⟩ := ih (o.id :: L) C
      refine ⟨L', ?_, ?_⟩
      · simpa [traceScan, hlim] using hscan
      · intro k
        rw [hmem k, List.filter_cons_of_pos (by simp [hlim]), List.map_cons]
        simp only [List.mem_cons]
        tauto
    · obtain ⟨L', hscan, hmem⟩ := ih L C
      refine ⟨L', ?_, ?_⟩
      · simpa [traceScan, hlim] using hscan
      · intro k
        rw [hmem k, List.filter_cons_of_neg (by simp [hlim])]

/-- Scanning a batch of cancel messages for distinct announced,
not-yet-cancelled ids succeeds and extends the cancelled accumulator by
exactly those ids. -/
theorem traceScan_cancels (t : ℚ) (ids : List Nat) : ∀ (L C : List Nat),
    ids.Nodup → (∀ i ∈ ids, i ∈ L) → (∀ i ∈ ids, i ∉ C) →
    ∃ C', traceScan L C (ids.map (fun i => WireMsg.cancel i t)) = some (L, C') ∧
      (∀ k, k ∈ C' ↔ k ∈ C ∨ k ∈ ids) := by
  induction ids with
  | nil => intro L C _ _ _; exact ⟨C, rfl, by simp⟩
  | cons i ids ih =>
    intro L C hnd hL hC
    simp only [List.nodup_cons] at hnd
    obtain ⟨C', hscan, hmem⟩ := ih L (i :: C)
      hnd.2
      (fun j hj => hL j (List.mem_cons_of_mem i hj))
      (fun j hj => by
        simp only [List.mem_cons, not_or]
        exact ⟨fun hji => hnd.1 (hji ▸ hj), hC j (List.mem_cons_of_mem i hj)⟩)
    refine ⟨C', ?_, ?_⟩
    · have hcond : i ∈ L ∧ i ∉ C :=
        ⟨hL i (List.mem_cons_self i ids), hC i (List.mem_cons_self i ids)⟩
      simpa [traceScan, if_pos hcond] using hscan
    · intro k
      rw [hmem k]
      simp only [List.mem_cons]
      tauto

/-- The scan splits over concatenation. -/
theorem traceScan_append (a : List WireMsg) : ∀ (b : List WireMsg) (L C : List Nat),
    traceScan L C (a ++ b) =
      (traceScan L C a).bind (fun p => traceScan p.1 p.2 b) := by
  induction a with
  | nil => intro b L C; rfl
  | cons m a ih =>
    intro b L C
    cases m with
    | order o => simp only [List.cons_append, traceScan]; exact ih b _ _
    | cancel i u =>
      simp only [List.cons_append, traceScan]
      split_ifs
      · exact ih b _ _
      · rfl

/-- The trace invariant survives the price phases (they touch neither
the index nor the id counter). -/
theorem traceInv_pricePhases (cfg : AppConfig) (r : TickRand) (s : EngState)
    (L C : List Nat) (hP : TraceInv L C s) : TraceInv L C (pricePhases cfg r s) := by
  obtain ⟨h1, h2, h3, h4, h5⟩ := hP
  have hf := pricePhases_fields cfg r s
  have hact : keysOf (pricePhases cfg r s).active = keysOf s.active := by rw [hf.2.1]
  refine ⟨?_, ?_, ?_, ?_, ?_⟩
  · rw [hact]; exact h1
  · intro k hk; rw [hact] at hk; exact h2 k hk
  · intro k hk; rw [hact] at hk; exact h3 k hk
  · intro k hk; rw [hf.1]; exact h4 k hk
  · intro k hk; rw [hf.1]; exact h5 k hk

/-- The trace invariant subsumes the structural index invariant. -/
theorem traceInv_activeInv (L C : List Nat) (s : EngState) (hP : TraceInv L C s) :
    ActiveInv s :=
  ⟨hP.1, fun k hk => hP.2.2.2.1 k (hP.2.1 k hk)⟩

/-- One unpaused tick extends a legal trace legally: the scan of its
messages succeeds and the invariant carries to the new state. -/
theorem tickCore_traceInv (cfg : AppConfig) (r : TickRand) (s : EngState)
    (L C : List Nat) (hP : TraceInv L C s) :
    ∃ L' C', traceScan L C (tickCore cfg r s).2.1 = some (L', C') ∧
      TraceInv L' C' (tickCore cfg r s).1 := by
  have hPu := traceInv_pricePhases cfg r s L C hP
  obtain ⟨hnd, hkL, hkC, hLb, hCb⟩ := hPu
  have hinvu : ActiveInv (pricePhases cfg r s) :=
    traceInv_activeInv L C _ (traceInv_pricePhases cfg r s L C hP)
  have hact' : (tickCore cfg r s).1.active = (tickRC cfg r (pricePhases cfg r s)).1 := rfl
  have hnid' : (tickCore cfg r s).1.next_id =
      (pricePhases cfg r s).next_id + (tickLDraws cfg r (pricePhases cfg r s)).length +
        (tickMDraws cfg r (pricePhases cfg r s)).length := rfl
  have hmsgs : (tickCore cfg r s).2.1 =
      (tickShuffled cfg r (pricePhases cfg r s)).map WireMsg.order ++
        ((tickExpired cfg r (pricePhases cfg r s)).map
          (fun i => WireMsg.cancel i (pricePhases cfg r s).current_time) ++
         (tickRC cfg r (pricePhases cfg r s)).2) := by
    rw [show (tickCore cfg r s).2.1 =
      ((tickShuffled cfg r (pricePhases cfg r s)).map WireMsg.order ++
        (tickExpired cfg r (pricePhases cfg r s)).map
          (fun i => WireMsg.cancel i (pricePhases cfg r s).current_time)) ++
        (tickRC cfg r (pricePhases cfg r s)).2 from rfl, List.append_assoc]
  obtain ⟨L1, hscanA, hL1⟩ := traceScan_orders (tickShuffled cfg r (pricePhases cfg r s)) L C
  have hkeys1 := tickActive1_keys cfg r (pricePhases cfg r s) hinvu
  have hinv1 := tickActive1_inv cfg r (pricePhases cfg r s) hinvu
  obtain ⟨hlen2, hnd2, hmem2⟩ := tickActive2_spec cfg r (pricePhases cfg r s) hinvu
  have hNrange : ∀ k ∈ ((tickShuffled cfg r (pricePhases cfg r s)).filter
      (fun o => decide (o.order_type = OrderType.Limit))).map Order.id,
      (pricePhases cfg r s).next_id ≤ k ∧
        k < (pricePhases cfg r s).next_id +
          ((tickLDraws cfg r (pricePhases cfg r s)).length +
            (tickMDraws cfg r (pricePhases cfg r s)).length) := by
    intro k hk
    have hsub : List.Sublist (((tickShuffled cfg r (pricePhases cfg r s)).filter
        (fun o => decide (o.order_type = OrderType.Limit))).map Order.id)
        ((tickShuffled cfg r (pricePhases cfg r s)).map Order.id) :=
      (List.filter_sublist _).map Order.id
    have h2 := (tickShuffled_ids_perm cfg r (pricePhases cfg r s)).subset (hsub.subset hk)
    exact List.mem_range'_1.mp h2
  have hK1L1 : ∀ k ∈ keysOf (tickActive1 cfg r (pricePhases cfg r s)), k ∈ L1 := by
    intro k hk
    rw [hkeys1, List.mem_append] at hk
    rcases hk with hk | hk
    · exact (hL1 k).mpr (Or.inl (hkL k hk))
    · exact (hL1 k).mpr (Or.inr hk)
  have hK1C : ∀ k ∈ keysOf (tickActive1 cfg r (pricePhases cfg r s)), k ∉ C := by
    intro k hk
    rw [hkeys1, List.mem_append] at hk
    rcases hk with hk | hk
    · exact hkC k hk
    · intro hc
      have := (hNrange k hk).1
      have := hCb k hc
      omega
  have hK1lt := hinv1.2
  obtain ⟨hexnd, hexmem⟩ := tickExpired_spec cfg r (pricePhases cfg r s) hinv1.1
  obtain ⟨C1, hscanB, hC1⟩ := traceScan_cancels (pricePhases cfg r s).current_time
    (tickExpired cfg r (pricePhases cfg r s)) L1 C hexnd
    (fun i hi => hK1L1 i (hexmem i hi))
    (fun i hi => hK1C i (hexmem i hi))
  have hL1lt : ∀ k ∈ L1,
      k < (pricePhases cfg r s).next_id + (tickLDraws cfg r (pricePhases cfg r s)).length +
        (tickMDraws cfg r (pricePhases cfg r s)).length := by
    intro k hk
    rcases (hL1 k).mp hk with hk | hk
    · have := hLb k hk; omega
    · have := (hNrange k hk).2; omega
  have hC1lt : ∀ k ∈ C1,
      k < (pricePhases cfg r s).next_id + (tickLDraws cfg r (pricePhases cfg r s)).length +
        (tickMDraws cfg r (pricePhases cfg r s)).length := by
    intro k hk
    rcases (hC1 k).mp hk with hk | hk
    · have := hCb k hk; omega
    · have := hK1lt k (hexmem k hk); omega
  have hK2L1 : ∀ k ∈ keysOf (tickActive2 cfg r (pricePhases cfg r s)), k ∈ L1 :=
    fun k hk => hK1L1 k ((hmem2 k).mp hk).1
  have hK2C1 : ∀ k ∈ keysOf (tickActive2 cfg r (pricePhases cfg r s)), k ∉ C1 := by
    intro k hk hc
    obtain ⟨hk1, hkex⟩ := (hmem2 k).mp hk
    rcases (hC1 k).mp hc with hc | hc
    · exact hK1C k hk1 hc
    · exact hkex hc
  have hK2lt : ∀ k ∈ keysOf (tickActive2 cfg r (pricePhases cfg r s)),
      k < (pricePhases cfg r s).next_id + (tickLDraws cfg r (pricePhases cfg r s)).length +
        (tickMDraws cfg r (pricePhases cfg r s)).length :=
    fun k hk => hK1lt k ((hmem2 k).mp hk).1
  rw [hmsgs, traceScan_append, hscanA, Option.some_bind, traceScan_append, hscanB,
    Option.some_bind]
  by_cases hrc : 0 < tickNumCancels cfg r (pricePhases cfg r s) ∧
      tickActive2 cfg r (pricePhases cfg r s) ≠ []
  · have hrceq : tickRC cfg r (pricePhases cfg r s) =
        regimeCancels r.cancelPicks (pricePhases cfg r s).current_time
          (min (tickNumCancels cfg r (pricePhases cfg r s))
            (tickActive2 cfg r (pricePhases cfg r s)).length) 0
          (tickActive2 cfg r (pricePhases cfg r s)) := by
      rw [tickRC, if_pos hrc]
    obtain ⟨ids2, hm2, hnd2', hmem2', _, _, hresnd, hresmem⟩ :=
      regimeCancels_spec r.cancelPicks (pricePhases cfg r s).current_time
        (min (tickNumCancels cfg r (pricePhases cfg r s))
          (tickActive2 cfg r (pricePhases cfg r s)).length) 0
        (tickActive2 cfg r (pricePhases cfg r s)) hnd2
    obtain ⟨C2, hscanC, hC2⟩ := traceScan_cancels (pricePhases cfg r s).current_time ids2 L1 C1
      hnd2'
      (fun i hi => hK2L1 i (hmem2' i hi))
      (fun i hi => hK2C1 i (hmem2' i hi))
    refine ⟨L1, C2, ?_, ?_⟩
    · rw [hrceq, hm2, hscanC]
    · rw [TraceInv, hact', hnid', hrceq]
      refine ⟨hresnd, ?_, ?_, ?_, ?_⟩
      · intro k hk
        exact hK2L1 k ((hresmem k).mp hk).1
      · intro k hk hc
        obtain ⟨hk2, hki⟩ := (hresmem k).mp hk
        rcases (hC2 k).mp hc with hc | hc
        · exact hK2C1 k hk2 hc
        · exact hki hc
      · exact hL1lt
      · intro k hk
        rcases (hC2 k).mp hk with hk | hk
        · exact hC1lt k hk
        · exact hK2lt k (hmem2' k hk)
  · have hrceq : tickRC cfg r (pricePhases cfg r s) =
        (tickActive2 cfg r (pricePhases cfg r s), []) := by
      rw [tickRC, if_neg hrc]
    refine ⟨L1, C1, ?_, ?_⟩
    · rw [hrceq]; rfl
    · rw [TraceInv, hact', hnid', hrceq]
      exact ⟨hnd2, hK2L1, hK2C1, hL1lt, hC1lt⟩

/-- The command drain preserves the trace invariant (it touches neither
the index nor the id counter). -/
theorem traceInv_drain (s : EngState) (cs : List ControlCommand) (L C : List Nat)
    (hP : TraceInv L C s) : TraceInv L C (drainCommands s cs) := by
  obtain ⟨h1, h2, h3, h4, h5⟩ := hP
  have hf := drainCommands_fields s cs
  have hact : keysOf (drainCommands s cs).active = keysOf s.active := by rw [hf.2.1]
  refine ⟨?_, ?_, ?_, ?_, ?_⟩
  · rw [hact]; exact h1
  · intro k hk; rw [hact] at hk; exact h2 k hk
  · intro k hk; rw [hact] at hk; exact h3 k hk
  · intro k hk; rw [hf.1]; exact h4 k hk
  · intro k hk; rw [hf.1]; exact h5 k hk

/-- One loop iteration extends a legal trace legally. -/
theorem engineStep_traceInv (cfg : AppConfig) (r : TickRand) (cs : List ControlCommand)
    (s : EngState) (L C : List Nat) (hP : TraceInv L C s) :
    ∃ L' C', traceScan L C (engineStep cfg r cs s).2.1 = some (L', C') ∧
      TraceInv L' C' (engineStep cfg r cs s).1 := by
  have hPd := traceInv_drain s cs L C hP
  simp only [engineStep]
  split_ifs
  · exact ⟨L, C, rfl, hPd⟩
  · exact tickCore_traceInv cfg r (drainCommands s cs) L C hPd

/-- Any run segment extends a legal trace legally. -/
theorem runFrom_traceInv (cfg : AppConfig) (rand : Nat → TickRand)
    (ctrl : Nat → List ControlCommand) :
    ∀ (n i : Nat) (s : EngState) (L C : List Nat), TraceInv L C s →
      ∃ L' C', traceScan L C (runFrom cfg rand ctrl i n s).2 = some (L', C') ∧
        TraceInv L' C' (runFrom cfg rand ctrl i n s).1 := by
  intro n
  induction n with
  | zero => intro i s L C hP; exact ⟨L, C, rfl, hP⟩
  | succ m ih =>
    intro i s L C hP
    obtain ⟨L1, C1, hscan1, hP1⟩ := engineStep_traceInv cfg (rand i) (ctrl i) s L C hP
    obtain ⟨L2, C2, hscan2, hP2⟩ :=
      ih (i + 1) (engineStep cfg (rand i) (ctrl i) s).1 L1 C1 hP1
    refine ⟨L2, C2, ?_, hP2⟩
    simp only [runFrom]
    rw [traceScan_append, hscan1, Option.some_bind, hscan2]

/-- Claim C5: every message trace the loop produces from its initial
state obeys the cancel discipline — the scan checking that each CANCEL
carries the id of an earlier LIMIT ORDER message and that no id is
cancelled twice accepts the whole stream, for every configuration,
oracle stream, control stream and run length. -/
theorem claim_C5 (cfg : AppConfig) (rand : Nat → TickRand)
    (ctrl : Nat → List ControlCommand) (dur_u : ℚ) (n : Nat) :
    traceOk (runMsgs cfg rand ctrl n dur_u) = true := by
  have hinit : TraceInv [] [] (initState cfg dur_u) := by
    refine ⟨?_, ?_, ?_, ?_, ?_⟩ <;> simp [initState, keysOf]
  obtain ⟨L', C', hscan, _⟩ :=
    runFrom_traceInv cfg rand ctrl n 0 (initState cfg dur_u) [] [] hinit
  rw [traceOk, runMsgs, hscan]
  rfl

/-- Sanity anchors for the scanner: a cancel without a prior limit
order, a doubled cancel, and a cancel of a market order's id are all
rejected. -/
theorem traceOk_rejects_violations :
    traceOk [WireMsg.cancel 0 0] = false ∧
    traceOk [WireMsg.order ⟨0, Side.Buy, OrderType.Limit, 1, 1, 0, 1⟩,
      WireMsg.cancel 0 0, WireMsg.cancel 0 1] = false ∧
    traceOk [WireMsg.order ⟨0, Side.Buy, OrderType.Market, 1, 1, 0, 0⟩,
      WireMsg.cancel 0 0] = false := by
  refine ⟨?_, ?_, ?_⟩ <;> rfl
